import Mathlib

/-!
# KVH DSP-1750 gyro driver: frame synchronisation, decoding and aggregation

Shallow embedding of `src/april/src/kvh/main.c` (`data_received`, `read_loop`)
and the properties of the frame decoder, the sample aggregator and the
four-state frame synchroniser.

Conventions of the embedding:
* a `uint8_t` is a `Nat` below 256; a C array is a `List` read with `getD` and
  written with `set`;
* an `int32_t` is an `Int`, every store into one goes through `toInt32`
  (two's-complement wrap to 32 bits);
* the host clock read by `timestamp_now()` is an input of each call;
* calls to the external collaborators (`timesync_update`, `kvh_t_publish`,
  `printf`) are recorded in the state as lists of their arguments;
* the floating point value `rads` is not represented: a published record
  carries the integer `sum` it is computed from.
-/

namespace Kvh

/-! # Part I: the embedding -/

/-! ## Machine integers -/

/-- Conversion of an integer to `int32_t`: two's-complement wrap to 32 bits. -/
def toInt32 (x : Int) : Int := (x + 2147483648) % 4294967296 - 2147483648

/-! ## State and calls of `data_received` -/

/-- The `kvh_t` message handed to `kvh_t_publish`. Field `sync` is the phase
passed to `timesync_get_host_utime`, field `sum` the value of the accumulator
from which `avg_rate` and `rads` are computed. -/
structure Record where
  sync : Nat
  sum : Int
  nsamples : Nat
  samples : List Int
deriving DecidableEq, Repr

/-- The exact quotient `sum / nsamples` that `avg_rate` approximates in floating point. -/
def Record.avg_rate (r : Record) : ℚ := (r.sum : ℚ) / (r.nsamples : ℚ)

/-- Static variables of `data_received` (`sum`, `count`, `lastprint`, `invalid`),
the global buffer `samples`, and the calls made so far to `timesync_update`
(`updates`: host time and phase), `printf` (`prints`: host time and invalid
count of each diagnostic line) and `kvh_t_publish` (`published`). -/
structure DRState where
  sum : Int
  count : Nat
  lastprint : Int
  invalid : Int
  samples : List Int
  updates : List (Int × Nat)
  prints : List (Int × Int)
  published : List Record
deriving DecidableEq, Repr

/-- State at program start: the statics are zero, the buffer is the freshly
allocated (uninitialised) array `buf`, nothing has been called yet. -/
def DRState.start (buf : List Int) : DRState :=
  { sum := 0, count := 0, lastprint := 0, invalid := 0, samples := buf,
    updates := [], prints := [], published := [] }

/-! ## The frame decoder and `data_received` -/

/-- Line 45: `sync = (data[0] >> 6) & 0x3`. -/
def frameSync (data : List Nat) : Nat := (data.getD 0 0 >>> 6) &&& 0x3

/-- Line 49: `valid = (data[0] & (1 << 4)) != 0`. -/
def frameValid (data : List Nat) : Bool := (data.getD 0 0 &&& (1 <<< 4)) != 0

/-- Lines 64-66: `(data[3] & 0x3F) << 16 | data[4] << 8 | data[5]`. -/
def frameRaw (data : List Nat) : Nat :=
  (((data.getD 3 0 &&& 0x3F) <<< 16) ||| (data.getD 4 0 <<< 8)) ||| data.getD 5 0

/-- Lines 64-70: the raw value, sign extended by `rate |= 0xFFC00000L` when
bit 21 is set, stored in an `int32_t`. -/
def frameRate (data : List Nat) : Int :=
  let rate : Nat := frameRaw data
  if rate &&& 0x200000 ≠ 0 then toInt32 ((rate ||| 0xFFC00000 : Nat) : Int) else (rate : Int)

/-- One call `data_received(data)` with `timestamp_now()` returning `hosttime`
and the global `nsamples` as given (lines 37-90). -/
def data_received (nsamples : Nat) (hosttime : Int) (s : DRState) (data : List Nat) : DRState :=
  let sync := frameSync data
  let s := { s with updates := s.updates ++ [(hosttime, sync)] }
  let valid := frameValid data
  let s := if !valid then { s with invalid := toInt32 (s.invalid + 1) } else s
  let s := if hosttime - s.lastprint > 1000000 then
      { s with prints := s.prints ++ [(hosttime, s.invalid)], lastprint := hosttime }
    else s
  if !valid then s
  else
    let rate := frameRate data
    let s := { s with samples := s.samples.set s.count rate,
                      count := s.count + 1,
                      sum := toInt32 (s.sum + rate) }
    if s.count = nsamples then
      { s with published := s.published ++
                 [{ sync := sync, sum := s.sum, nsamples := nsamples, samples := s.samples }],
               count := 0, sum := 0 }
    else s

/-- Two's-complement reading of a 22-bit value. -/
def twos22 (raw : Nat) : Int := if raw < 2097152 then (raw : Int) else (raw : Int) - 4194304

/-! ## Sequences of calls; the aggregator invariant -/

/-- Successive calls of `data_received`, each with its clock reading. -/
def feed (nsamples : Nat) (s : DRState) (calls : List (Int × List Nat)) : DRState :=
  calls.foldl (fun s c => data_received nsamples c.1 s c.2) s

/-- Rates of the valid frames among the calls, in arrival order. -/
def validRates (calls : List (Int × List Nat)) : List Int :=
  (calls.filter (fun c => frameValid c.2)).map (fun c => frameRate c.2)

/-- The `k`-th group of `n` consecutive elements of `rs`. -/
def chunk (n : Nat) (rs : List Int) (k : Nat) : List Int := (rs.drop (k * n)).take n

/-- The fields of a record the aggregator determines: `nsamples`, `samples`, `sum`. -/
def Record.view (r : Record) : Nat × List Int × Int := (r.nsamples, r.samples, r.sum)

/-- Invariant of the aggregator after the valid rates `rs` have arrived, `q`
records having been published. -/
def AggInv (n : Nat) (rs : List Int) (s : DRState) (q : Nat) : Prop :=
  rs.length = q * n + s.count ∧ s.count < n ∧ s.samples.length = n
  ∧ s.samples.take s.count = rs.drop (q * n)
  ∧ s.sum = toInt32 (rs.drop (q * n)).sum
  ∧ s.published.map Record.view
      = (List.range q).map (fun k => (n, chunk n rs k, toInt32 (chunk n rs k).sum))

/-! ## Round trip: the encoding side -/

/-- A `(validity, rate, phase)` tuple of the round-trip property. -/
structure Reading where
  validity : Bool
  rate : Int
  phase : Nat
deriving DecidableEq, Repr

/-- Encoding relation of the round trip, in the words of the specification:
phase in the top 2 bits of byte 0, validity in bit 4 of byte 0, bits 16-21 of
`rate mod 2^22` in bits 0-5 of byte 3, bits 8-15 in byte 4, bits 0-7 in byte 5,
all remaining bits arbitrary. -/
def Encodes (t : Reading) (f : List Nat) : Prop :=
  f.length = 6 ∧ (∀ b ∈ f, b < 256)
  ∧ f.getD 0 0 / 64 = t.phase
  ∧ (f.getD 0 0).testBit 4 = t.validity
  ∧ f.getD 3 0 % 64 = (t.rate % 4194304).toNat / 65536
  ∧ f.getD 4 0 = (t.rate % 4194304).toNat / 256 % 256
  ∧ f.getD 5 0 = (t.rate % 4194304).toNat % 256

instance (t : Reading) (f : List Nat) : Decidable (Encodes t f) := by
  unfold Encodes
  infer_instance

/-- One encoder satisfying `Encodes`: every bit left free is zero. -/
def encode (t : Reading) : List Nat :=
  [ (t.phase % 4) * 64 + (if t.validity then 16 else 0), 0, 0,
    (t.rate % 4194304).toNat / 65536,
    (t.rate % 4194304).toNat / 256 % 256,
    (t.rate % 4194304).toNat % 256 ]

/-! ## Concrete frames -/

/-- The six valid frames carrying the rates 10, 20, 30, 40, 50, 60. -/
def sixFrames : List (Int × List Nat) :=
  [(0, [16, 0, 0, 0, 0, 10]), (0, [16, 0, 0, 0, 0, 20]), (0, [16, 0, 0, 0, 0, 30]),
   (0, [16, 0, 0, 0, 0, 40]), (0, [16, 0, 0, 0, 0, 50]), (0, [16, 0, 0, 0, 0, 60])]

/-- A valid frame whose raw rate is `0x1FFFFF`, the largest positive rate. -/
def maxFrame : List Nat := [16, 0, 0, 0x1F, 0xFF, 0xFF]

/-- A valid frame whose raw rate is `0x200000`, the most negative rate. -/
def minFrame : List Nat := [16, 0, 0, 0x20, 0, 0]

/-! ## `read_loop` -/

/-- States of the frame synchroniser (the anonymous `enum` of the source). -/
inductive SyncState where
  | STARTUP
  | ACQUIRE1
  | ACQUIRE2
  | LOCKED
deriving DecidableEq, Repr

/-- Local variables of `read_loop`. The arrays `data`, `counts`, `last` have six
cells; before the first pass through `STARTUP` every field but `state` holds
whatever the stack held. -/
structure LoopState where
  state : SyncState
  lastsync : Nat
  data : List Nat
  counts : List Nat
  last : List Nat
  i : Nat
deriving DecidableEq, Repr

/-- What one iteration of the loop does besides updating its locals: nothing,
print "Lost sync. Resynchronizing", or call `data_received(data)`. -/
inductive Action where
  | idle
  | lostSync
  | frame (data : List Nat)
deriving DecidableEq, Repr

/-- The sync bits of an input character: `((uint8_t)c) >> 6`. -/
def syncBits (c : Nat) : Nat := (c % 256) >>> 6

/-- One iteration of the `while` loop of `read_loop` on the character `c`
(lines 105-176): the new locals and the action taken. The `verbose` debugging
print of `ACQUIRE2` changes no variable and is left out. -/
def step (s : LoopState) (c : Nat) : LoopState × Action :=
  match s.state with
  | .STARTUP =>
    ({ s with counts := (List.range 6).foldl (fun cs j => cs.set j 0) s.counts,
              i := 0, state := .ACQUIRE1 }, .idle)
  | .ACQUIRE1 =>
    let s := { s with last := s.last.set s.i (syncBits c), i := s.i + 1 }
    if s.i = 6 then ({ s with i := 0, state := .ACQUIRE2 }, .idle) else (s, .idle)
  | .ACQUIRE2 =>
    let sync := syncBits c
    if sync = (s.last.getD s.i 0 + 1) % 4 then
      let s := { s with counts := s.counts.set s.i ((s.counts.getD s.i 0 + 1) % 256) }
      if s.counts.getD s.i 0 ≥ 10 then
        ({ s with state := .LOCKED, data := s.data.set 0 (c % 256), i := 1, lastsync := sync },
          .idle)
      else ({ s with last := s.last.set s.i sync, i := (s.i + 1) % 6 }, .idle)
    else
      let s := { s with counts := s.counts.set s.i 0 }
      ({ s with last := s.last.set s.i sync, i := (s.i + 1) % 6 }, .idle)
  | .LOCKED =>
    let s := { s with data := s.data.set s.i (c % 256) }
    if s.i = 0 then
      let sync := syncBits c
      if sync ≠ (s.lastsync + 1) % 4 then ({ s with state := .STARTUP }, .lostSync)
      else ({ s with lastsync := sync, i := (s.i + 1) % 6 }, .idle)
    else if s.i = 5 then ({ s with i := (s.i + 1) % 6 }, .frame s.data)
    else ({ s with i := (s.i + 1) % 6 }, .idle)

/-- Locals of `read_loop` after it has consumed the characters `bs` from `s`. -/
def run (s : LoopState) (bs : List Nat) : LoopState :=
  bs.foldl (fun s c => (step s c).1) s

/-- Actions of `read_loop`, one per consumed character, in order. -/
def actions (s : LoopState) : List Nat → List Action
  | [] => []
  | c :: bs => (step s c).2 :: actions (step s c).1 bs

/-! ## Initial states, the whole driver -/

/-- Locals on entry to `read_loop`: `state = STARTUP`, the rest as found. -/
def LoopState.entry (lastsync i : Nat) (data counts last : List Nat) : LoopState :=
  { state := .STARTUP, lastsync := lastsync, data := data, counts := counts, last := last, i := i }

/-- The arrays of the loop have their declared size. -/
def LoopState.Sized (s : LoopState) : Prop :=
  s.data.length = 6 ∧ s.counts.length = 6 ∧ s.last.length = 6

/-- The whole program state: locals of `read_loop`, state of `data_received`,
number of "Lost sync" lines printed. -/
structure Driver where
  loop : LoopState
  dr : DRState
  lost : Nat
deriving DecidableEq, Repr

/-- One iteration of `read_loop` with the call it makes, `hosttime` being the
host clock during the iteration. -/
def read_loop_iter (nsamples : Nat) (k : Driver) (c : Nat) (hosttime : Int) : Driver :=
  match step k.loop c with
  | (l, .idle) => { k with loop := l }
  | (l, .lostSync) => { k with loop := l, lost := k.lost + 1 }
  | (l, .frame d) => { k with loop := l, dr := data_received nsamples hosttime k.dr d }

/-- The loop of `read_loop` over the input characters until `EOF`, each paired with the host
clock of its iteration. -/
def read_loop (nsamples : Nat) (k : Driver) (input : List (Nat × Int)) : Driver :=
  input.foldl (fun k x => read_loop_iter nsamples k x.1 x.2) k

/-! ## Concrete streams -/

/-- The stream of 16 frames `[phase k, 0, 0, 0, 0, 0]`, `k = 0..15`. -/
def cleanStream : List Nat :=
  (List.range 16).flatMap (fun k => [(k % 4) * 64, 0, 0, 0, 0, 0])

/-- A stream of 16 well-formed frames whose second bytes also count up during
the first eleven frames. -/
def decoyStream : List Nat :=
  (List.range 16).flatMap (fun k => [(k % 4) * 64, if k < 11 then (k % 4) * 64 else 0, 0, 0, 0, 0])

/-- Locals on entry to `read_loop` with every cell zero. -/
def entry0 : LoopState := LoopState.entry 0 0 [0,0,0,0,0,0] [0,0,0,0,0,0] [0,0,0,0,0,0]

/-! ## Invariants of the synchroniser -/

/-- Sync bits of the character at index `q` of the stream. -/
def phaseAt (bs : List Nat) (q : Nat) : Nat := syncBits (bs.getD q 0)

/-- Character `m` was consumed in `STARTUP` and no character after it, up to
the moment `t` characters have been consumed, was. -/
def Since (s0 : LoopState) (bs : List Nat) (m t : Nat) : Prop :=
  m < t ∧ (run s0 (bs.take m)).state = .STARTUP
  ∧ ∀ j, m < j → j ≤ t → (run s0 (bs.take j)).state ≠ .STARTUP

/-- In `ACQUIRE1`, `t` characters consumed, the last `STARTUP` at character `m`. -/
def Acq1Inv (bs : List Nat) (m t : Nat) (s : LoopState) : Prop :=
  s.i < 6 ∧ t = m + 1 + s.i ∧ (∀ p, s.counts.getD p 0 = 0)
  ∧ ∀ p, p < s.i → s.last.getD p 0 = phaseAt bs (m + 1 + p)

/-- In `ACQUIRE2`, `t` characters consumed, the last `STARTUP` at character `m`:
for each position `p` the most recent character at that position has index
`q = t - 6 + (p + 6 - i) % 6`, `last[p]` is its phase, and `counts[p]` increments
in a row ended there, all after the `STARTUP`. -/
def Acq2Inv (bs : List Nat) (m t : Nat) (s : LoopState) : Prop :=
  s.i < 6 ∧ m + 7 ≤ t ∧ (t - (m + 1)) % 6 = s.i
  ∧ ∀ p, p < 6 → ∀ q, q + 6 = t + (p + 6 - s.i) % 6 →
      s.last.getD p 0 = phaseAt bs q ∧ s.counts.getD p 0 < 10
      ∧ m + 1 + 6 * s.counts.getD p 0 ≤ q
      ∧ ∀ k, k < s.counts.getD p 0 →
          phaseAt bs (q - 6 * k) = (phaseAt bs (q - 6 * k - 6) + 1) % 4

/-- Invariant of the acquisition states after `t` characters. -/
def SyncInv (s0 : LoopState) (bs : List Nat) (t : Nat) : Prop :=
  match (run s0 (bs.take t)).state with
  | .ACQUIRE1 => ∃ m, Since s0 bs m t ∧ Acq1Inv bs m t (run s0 (bs.take t))
  | .ACQUIRE2 => ∃ m, Since s0 bs m t ∧ Acq2Inv bs m t (run s0 (bs.take t))
  | _ => True

/-- A driver that is locked, at the start of a frame, the last phase being 0. -/
def lockedAtStart : Driver :=
  { loop := { state := .LOCKED, lastsync := 0, data := [0, 0, 0, 0, 0, 0],
              counts := [0, 0, 0, 0, 0, 0], last := [0, 0, 0, 0, 0, 0], i := 0 },
    dr := DRState.start [0, 0, 0, 0, 0, 0], lost := 0 }

/-- The stream starts `off` characters inside a frame, and the phase of each
frame's first character is the phase of the previous frame's first character
plus 1 mod 4. Nothing is required of the other characters. -/
def WellFormed (off : Nat) (bs : List Nat) : Prop :=
  ∀ t, t < bs.length - 6 → (t + off) % 6 = 0 → phaseAt bs (t + 6) = (phaseAt bs t + 1) % 4

instance (off : Nat) (bs : List Nat) : Decidable (WellFormed off bs) := by
  unfold WellFormed
  infer_instance

/-- While locked on a frame boundary at character `n`: `t` characters consumed. -/
def LockInv (bs : List Nat) (n t : Nat) (s : LoopState) : Prop :=
  s.state = .LOCKED ∧ s.i = (t - n) % 6
  ∧ ∀ q, q + (t - 1 - n) % 6 + 1 = t → s.lastsync = phaseAt bs q

/-- Completeness of the statistics at the position of the frame boundary
(`5 - off`, first stored from the character of index `6 - off`): every
comparison made there so far has been counted. -/
def CountInv (off t : Nat) (s : LoopState) : Prop :=
  ∀ q, q + 6 = t + (5 - off + 6 - s.i) % 6 → q ≤ 6 - off + 6 * s.counts.getD (5 - off) 0

/-- Either the loop has been `LOCKED` at some moment up to `t`, or it is still
acquiring with complete statistics at the frame boundary. -/
def AcqProgress (s0 : LoopState) (bs : List Nat) (off t : Nat) : Prop :=
  (∃ u, u ≤ t ∧ (run s0 (bs.take u)).state = .LOCKED)
  ∨ (t = 0 ∧ (run s0 (bs.take t)).state = .STARTUP)
  ∨ ((run s0 (bs.take t)).state = .ACQUIRE1 ∧ Acq1Inv bs 0 t (run s0 (bs.take t)))
  ∨ ((run s0 (bs.take t)).state = .ACQUIRE2 ∧ Acq2Inv bs 0 t (run s0 (bs.take t))
      ∧ CountInv off t (run s0 (bs.take t)))

/-! ## Calls made by `read_loop` -/

/-- The calls `data_received(data)` made by `read_loop` from the locals `s` over
the input, each with the host clock of its iteration, in order. -/
def frameCalls (s : LoopState) : List (Nat × Int) → List (Int × List Nat)
  | [] => []
  | x :: xs =>
    match (step s x.1).2 with
    | .frame d => (x.2, d) :: frameCalls (step s x.1).1 xs
    | _ => frameCalls (step s x.1).1 xs

/-- The action is a call of `data_received`. -/
def Action.isFrame : Action → Bool
  | .frame _ => true
  | _ => false

/-- The driver at program start with every cell zero and a buffer of six samples. -/
def driver0 : Driver :=
  { loop := entry0, dr := DRState.start [0, 0, 0, 0, 0, 0], lost := 0 }

/-- The characters of `cleanStream`, each read at host time 0. -/
def cleanInput : List (Nat × Int) := cleanStream.map (fun c => (c, 0))

/-- While `LOCKED` with `t` characters consumed: the lock was entered on some
character `m` and kept since, the cursor is `(t - m) % 6`, and the cells of
`data` below the cursor hold the characters of the frame in progress. -/
def FrameInv (s0 : LoopState) (bs : List Nat) (t : Nat) : Prop :=
  (run s0 (bs.take t)).state = .LOCKED →
    ∃ m, m < t ∧ (run s0 (bs.take m)).state = .ACQUIRE2
      ∧ (∀ j, m < j → j ≤ t → (run s0 (bs.take j)).state = .LOCKED)
      ∧ (run s0 (bs.take t)).i = (t - m) % 6
      ∧ ∀ p, p < (t - m) % 6 → ∀ q, q + (t - m) % 6 = t + p →
          (run s0 (bs.take t)).data.getD p 0 = bs.getD q 0 % 256

/-! # Part II: properties -/

/-! ## Bit-level facts about the decoder -/

theorem getD_byte (data : List Nat) (h : ∀ b ∈ data, b < 256) (k : Nat) :
    data.getD k 0 < 256 := by
  rw [List.getD_eq_getElem?_getD]
  cases hk : data[k]? with
  | none => simp
  | some b => simpa using h b (List.getElem?_mem hk)

theorem frameValid_eq (data : List Nat) : frameValid data = (data.getD 0 0).testBit 4 := by
  unfold frameValid
  have e : data.getD 0 0 &&& (1 <<< 4) = ((data.getD 0 0).testBit 4).toNat * 2 ^ 4 :=
    Nat.and_two_pow (data.getD 0 0) 4
  rw [e]
  cases (data.getD 0 0).testBit 4 <;> simp

theorem raw_eq (b3 b4 b5 : Nat) (h4 : b4 < 256) (h5 : b5 < 256) :
    (((b3 &&& 0x3F) <<< 16) ||| (b4 <<< 8)) ||| b5 = (b3 % 64) * 65536 + b4 * 256 + b5 := by
  have e1 : b3 &&& 0x3F = b3 % 64 := Nat.and_pow_two_sub_one_eq_mod b3 6
  rw [e1]
  have e2 : (b3 % 64) <<< 16 ||| b4 <<< 8 = ((b3 % 64) * 256 + b4) <<< 8 := by
    have := Nat.mul_add_lt_is_or (i := 16) (b := b4 <<< 8) (by rw [Nat.shiftLeft_eq]; omega) (b3 % 64)
    rw [Nat.shiftLeft_eq, Nat.shiftLeft_eq, Nat.shiftLeft_eq] at *
    rw [Nat.mul_comm (b3 % 64) (2^16), ← this]
    omega
  rw [e2]
  have := Nat.mul_add_lt_is_or (i := 8) (b := b5) (by omega) ((b3 % 64) * 256 + b4)
  rw [Nat.shiftLeft_eq, Nat.mul_comm _ (2^8), ← this]
  omega

theorem frameRaw_eq (data : List Nat) (h : ∀ b ∈ data, b < 256) :
    frameRaw data = (data.getD 3 0 % 64) * 65536 + data.getD 4 0 * 256 + data.getD 5 0 :=
  raw_eq _ _ _ (getD_byte data h 4) (getD_byte data h 5)

theorem bit21 (r : Nat) (h : r < 4194304) : (r &&& 0x200000 ≠ 0) ↔ 2097152 ≤ r := by
  have e : r &&& 2097152 = (r.testBit 21).toNat * 2097152 := by
    have := Nat.and_two_pow r 21
    simpa using this
  have t : r.testBit 21 = decide (r / 2^21 % 2 = 1) := Nat.testBit_to_div_mod
  show r &&& 2097152 ≠ 0 ↔ _
  rw [e, t]
  by_cases hr : 2097152 ≤ r
  · have : r / 2097152 % 2 = 1 := by omega
    simp [this, hr]
  · have : r / 2097152 % 2 = 0 := by omega
    simp [this, hr]

theorem or_ext (r : Nat) (h : r < 4194304) : r ||| 0xFFC00000 = r + 4290772992 := by
  have := Nat.mul_add_lt_is_or (i := 22) (b := r) (by omega) 1023
  rw [Nat.lor_comm]
  show 4290772992 ||| r = _
  have e : (2:Nat)^22 * 1023 = 4290772992 := by norm_num
  rw [e] at this
  omega

theorem frameRate_eq (data : List Nat) (h : ∀ b ∈ data, b < 256) :
    frameRate data = twos22 ((data.getD 3 0 % 64) * 65536 + data.getD 4 0 * 256 + data.getD 5 0) := by
  have h4 := getD_byte data h 4
  have h5 := getD_byte data h 5
  have hr := frameRaw_eq data h
  have hlt : frameRaw data < 4194304 := by omega
  unfold frameRate twos22
  simp only []
  rw [← hr]
  by_cases hb : 2097152 ≤ frameRaw data
  · rw [if_pos ((bit21 _ hlt).2 hb), if_neg (by omega), or_ext _ hlt]
    unfold toInt32
    push_cast
    omega
  · rw [if_neg (fun hc => hb ((bit21 _ hlt).1 hc)), if_pos (by omega)]

/-! ## One call of `data_received` -/

theorem data_received_valid (nsamples : Nat) (hosttime : Int) (s : DRState) (data : List Nat)
    (hv : frameValid data = true) :
    (data_received nsamples hosttime s data).samples = s.samples.set s.count (frameRate data)
    ∧ (data_received nsamples hosttime s data).invalid = s.invalid := by
  unfold data_received
  simp only [hv, Bool.not_true, Bool.false_eq_true, if_false]
  split_ifs <;> simp

/-! ## The aggregator invariant -/

theorem toInt32_add (a b : Int) : toInt32 (toInt32 a + b) = toInt32 (a + b) := by
  unfold toInt32
  omega

theorem toInt32_of_range (a : Int) (h1 : -2147483648 ≤ a) (h2 : a ≤ 2147483647) : toInt32 a = a := by
  unfold toInt32
  omega

theorem take_set_self (l : List Int) (n : Nat) (r : Int) : (l.set n r).take n = l.take n := by
  induction l generalizing n with
  | nil => simp
  | cons a l ih =>
    cases n with
    | zero => simp
    | succ n => simp [ih]

theorem take_succ_set (l : List Int) (n : Nat) (r : Int) (h : n < l.length) :
    (l.set n r).take (n + 1) = l.take n ++ [r] := by
  rw [List.take_succ, List.getElem?_set_self h, take_set_self]
  rfl

theorem data_received_invalid (nsamples : Nat) (hosttime : Int) (s : DRState) (data : List Nat)
    (hv : frameValid data = false) :
    (data_received nsamples hosttime s data).sum = s.sum
    ∧ (data_received nsamples hosttime s data).count = s.count
    ∧ (data_received nsamples hosttime s data).samples = s.samples
    ∧ (data_received nsamples hosttime s data).published = s.published
    ∧ (data_received nsamples hosttime s data).invalid = toInt32 (s.invalid + 1) := by
  unfold data_received
  simp only [hv, Bool.not_false, if_true]
  split_ifs <;> simp

theorem data_received_fill (nsamples : Nat) (hosttime : Int) (s : DRState) (data : List Nat)
    (hv : frameValid data = true) (hc : s.count + 1 ≠ nsamples) :
    (data_received nsamples hosttime s data).sum = toInt32 (s.sum + frameRate data)
    ∧ (data_received nsamples hosttime s data).count = s.count + 1
    ∧ (data_received nsamples hosttime s data).samples = s.samples.set s.count (frameRate data)
    ∧ (data_received nsamples hosttime s data).published = s.published := by
  unfold data_received
  simp only [hv, Bool.not_true, Bool.false_eq_true, if_false]
  split_ifs <;> simp_all

theorem data_received_publish (nsamples : Nat) (hosttime : Int) (s : DRState) (data : List Nat)
    (hv : frameValid data = true) (hc : s.count + 1 = nsamples) :
    (data_received nsamples hosttime s data).sum = 0
    ∧ (data_received nsamples hosttime s data).count = 0
    ∧ (data_received nsamples hosttime s data).samples = s.samples.set s.count (frameRate data)
    ∧ (data_received nsamples hosttime s data).published = s.published ++
        [{ sync := frameSync data, sum := toInt32 (s.sum + frameRate data), nsamples := nsamples,
           samples := s.samples.set s.count (frameRate data) }] := by
  unfold data_received
  simp only [hv, Bool.not_true, Bool.false_eq_true, if_false]
  split_ifs <;> simp_all

theorem chunk_append (n : Nat) (rs : List Int) (r : Int) (k : Nat) (h : k * n + n ≤ rs.length) :
    chunk n (rs ++ [r]) k = chunk n rs k := by
  unfold chunk
  rw [List.drop_append_of_le_length (by omega), List.take_append_of_le_length (by simp; omega)]

theorem AggInv_step (n : Nat) (hosttime : Int) (rs : List Int) (s : DRState) (q : Nat)
    (data : List Nat) (hv : frameValid data = true) (h : AggInv n rs s q) :
    ∃ q', AggInv n (rs ++ [frameRate data]) (data_received n hosttime s data) q' := by
  obtain ⟨hlen, hlt, hsl, htake, hsum, hpub⟩ := h
  have hmono : ∀ k, k < q → k * n + n ≤ rs.length := by
    intro k hk
    have : (k + 1) * n ≤ q * n := Nat.mul_le_mul_right n hk
    rw [Nat.add_mul, Nat.one_mul] at this
    omega
  have hmap : ((List.range q).map fun k => (n, chunk n (rs ++ [frameRate data]) k,
        toInt32 (chunk n (rs ++ [frameRate data]) k).sum))
      = (List.range q).map (fun k => (n, chunk n rs k, toInt32 (chunk n rs k).sum)) := by
    apply List.map_congr_left
    intro k hk
    rw [chunk_append n rs _ k (hmono k (List.mem_range.1 hk))]
  have hdrop : (rs ++ [frameRate data]).drop (q * n) = rs.drop (q * n) ++ [frameRate data] :=
    List.drop_append_of_le_length (by omega)
  by_cases hc : s.count + 1 = n
  · obtain ⟨e1, e2, e3, e4⟩ := data_received_publish n hosttime s data hv hc
    have hfull : s.samples.set s.count (frameRate data) = rs.drop (q * n) ++ [frameRate data] := by
      have := take_succ_set s.samples s.count (frameRate data) (by omega)
      rw [List.take_of_length_le (by simp; omega), htake] at this
      exact this
    have hchunk : chunk n (rs ++ [frameRate data]) q = rs.drop (q * n) ++ [frameRate data] := by
      unfold chunk
      rw [hdrop, List.take_of_length_le (by simp; omega)]
    refine ⟨q + 1, ?_, ?_, ?_, ?_, ?_, ?_⟩
    · rw [e2, Nat.add_mul]; simp; omega
    · rw [e2]; omega
    · rw [e3]; simpa using hsl
    · rw [e2, List.drop_of_length_le (by rw [Nat.add_mul]; simp; omega)]; rfl
    · rw [e1, List.drop_of_length_le (by rw [Nat.add_mul]; simp; omega)]; rfl
    · rw [e4, List.map_append, hpub, List.range_succ, List.map_append, hmap]
      simp only [List.map_cons, List.map_nil, Record.view, hfull, hchunk, List.sum_append,
        List.sum_singleton]
      rw [hsum, toInt32_add]
  · obtain ⟨e1, e2, e3, e4⟩ := data_received_fill n hosttime s data hv hc
    refine ⟨q, ?_, ?_, ?_, ?_, ?_, ?_⟩
    · rw [e2]; simp; omega
    · rw [e2]; omega
    · rw [e3]; simpa using hsl
    · rw [e2, e3, take_succ_set _ _ _ (by omega), htake, hdrop]
    · rw [e1, hdrop, List.sum_append, List.sum_singleton, hsum, toInt32_add]
    · rw [e4, hpub, hmap]

theorem AggInv_skip (n : Nat) (hosttime : Int) (rs : List Int) (s : DRState) (q : Nat)
    (data : List Nat) (hv : frameValid data = false) (h : AggInv n rs s q) :
    AggInv n rs (data_received n hosttime s data) q := by
  obtain ⟨e1, e2, e3, e4, _⟩ := data_received_invalid n hosttime s data hv
  unfold AggInv
  rw [e1, e2, e3, e4]
  exact h

theorem validRates_append (calls : List (Int × List Nat)) (c : Int × List Nat) :
    validRates (calls ++ [c]) =
      if frameValid c.2 then validRates calls ++ [frameRate c.2] else validRates calls := by
  unfold validRates
  by_cases hv : frameValid c.2 = true <;> simp [List.filter_append, hv]

theorem feed_append (n : Nat) (s : DRState) (calls : List (Int × List Nat)) (c : Int × List Nat) :
    feed n s (calls ++ [c]) = data_received n c.1 (feed n s calls) c.2 := by
  simp [feed, List.foldl_append]

theorem AggInv_feed (n : Nat) (hn : 1 ≤ n) (buf : List Int) (hbuf : buf.length = n)
    (calls : List (Int × List Nat)) :
    ∃ q, AggInv n (validRates calls) (feed n (DRState.start buf) calls) q := by
  induction calls using List.reverseRecOn with
  | nil =>
    refine ⟨0, ?_⟩
    simp [AggInv, validRates, feed, DRState.start, toInt32, hbuf]
    omega
  | append_singleton calls c ih =>
    obtain ⟨q, hq⟩ := ih
    rw [feed_append, validRates_append]
    by_cases hv : frameValid c.2 = true
    · rw [if_pos hv]
      exact AggInv_step n c.1 _ _ q c.2 hv hq
    · rw [if_neg hv]
      exact ⟨q, AggInv_skip n c.1 _ _ q c.2 (by simpa using hv) hq⟩

theorem AggInv_div_mod (n : Nat) (rs : List Int) (s : DRState) (q : Nat) (h : AggInv n rs s q) :
    q = rs.length / n ∧ s.count = rs.length % n := by
  obtain ⟨hlen, hlt, _⟩ := h
  have hpos : 0 < n := by omega
  constructor
  · rw [hlen, Nat.mul_comm, Nat.mul_add_div hpos, Nat.div_eq_of_lt hlt]; rfl
  · rw [hlen, Nat.mul_comm, Nat.mul_add_mod, Nat.mod_eq_of_lt hlt]

theorem twos22_range (raw : Nat) (h : raw < 4194304) :
    -2097152 ≤ twos22 raw ∧ twos22 raw ≤ 2097151 := by
  unfold twos22
  split_ifs <;> omega

theorem frameRate_range (data : List Nat) (h : ∀ b ∈ data, b < 256) :
    -2097152 ≤ frameRate data ∧ frameRate data ≤ 2097151 := by
  rw [frameRate_eq data h]
  have h4 := getD_byte data h 4
  have h5 := getD_byte data h 5
  exact twos22_range _ (by omega)

theorem Encodes_decode (t : Reading) (f : List Nat) (h : Encodes t f)
    (hlo : -2097152 ≤ t.rate) (hhi : t.rate ≤ 2097151) :
    frameValid f = t.validity ∧ frameRate f = t.rate := by
  obtain ⟨_, hb, _, hv, h3, h4, h5⟩ := h
  refine ⟨by rw [frameValid_eq f, hv], ?_⟩
  rw [frameRate_eq f hb, h3, h4, h5]
  have hu : ((t.rate % 4194304).toNat : Int) = t.rate % 4194304 :=
    Int.toNat_of_nonneg (Int.emod_nonneg _ (by decide))
  generalize (t.rate % 4194304).toNat = u at hu
  have e : u / 65536 * 65536 + u / 256 % 256 * 256 + u % 256 = u := by omega
  rw [e]
  unfold twos22
  split_ifs <;> omega

/-! ## Consequences of the aggregator invariant -/

theorem feed_spec (n : Nat) (hn : 1 ≤ n) (buf : List Int) (hbuf : buf.length = n)
    (calls : List (Int × List Nat)) :
    AggInv n (validRates calls) (feed n (DRState.start buf) calls) ((validRates calls).length / n)
    ∧ (feed n (DRState.start buf) calls).count = (validRates calls).length % n := by
  obtain ⟨q, hq⟩ := AggInv_feed n hn buf hbuf calls
  obtain ⟨e1, e2⟩ := AggInv_div_mod n _ _ q hq
  rw [← e1]
  exact ⟨hq, e2⟩

theorem validRates_length (calls : List (Int × List Nat)) :
    (validRates calls).length = (calls.filter (fun c => frameValid c.2)).length := by
  simp [validRates]

theorem validRates_mem (calls : List (Int × List Nat)) (x : Int) (h : x ∈ validRates calls) :
    ∃ c ∈ calls, x = frameRate c.2 := by
  unfold validRates at h
  obtain ⟨c, hc, rfl⟩ := List.mem_map.1 h
  exact ⟨c, (List.mem_filter.1 hc).1, rfl⟩

theorem validRates_replicate (k : Nat) (c : Int × List Nat) (hv : frameValid c.2 = true) :
    validRates (List.replicate k c) = List.replicate k (frameRate c.2) := by
  induction k with
  | zero => rfl
  | succ k ih =>
    rw [List.replicate_succ', validRates_append, if_pos hv, ih, ← List.replicate_succ']

theorem sum_replicate_int (k : Nat) (x : Int) : (List.replicate k x).sum = (k : Int) * x := by
  induction k with
  | zero => simp
  | succ k ih =>
    rw [List.replicate_succ, List.sum_cons, ih]
    push_cast
    ring

theorem sum_bounds (l : List Int) (h : ∀ x ∈ l, -2097152 ≤ x ∧ x ≤ 2097151) :
    -2097152 * (l.length : Int) ≤ l.sum ∧ l.sum ≤ 2097151 * (l.length : Int) := by
  induction l with
  | nil => simp
  | cons a l ih =>
    have ha := h a (List.mem_cons_self a l)
    have hl := ih (fun x hx => h x (List.mem_cons_of_mem a hx))
    rw [List.sum_cons, List.length_cons]
    push_cast
    omega

theorem published_view (n : Nat) (hn : 1 ≤ n) (buf : List Int) (hbuf : buf.length = n)
    (calls : List (Int × List Nat)) (r : Record)
    (hr : r ∈ (feed n (DRState.start buf) calls).published) :
    ∃ k, k < (validRates calls).length / n ∧ r.nsamples = n
      ∧ r.samples = chunk n (validRates calls) k
      ∧ r.sum = toInt32 (chunk n (validRates calls) k).sum := by
  obtain ⟨⟨_, _, _, _, _, hpub⟩, _⟩ := feed_spec n hn buf hbuf calls
  have hm : r.view ∈ (feed n (DRState.start buf) calls).published.map Record.view :=
    List.mem_map_of_mem _ hr
  rw [hpub] at hm
  obtain ⟨k, hk, e⟩ := List.mem_map.1 hm
  refine ⟨k, List.mem_range.1 hk, ?_⟩
  simp only [Record.view, Prod.mk.injEq] at e
  exact ⟨e.1.symm, e.2.1.symm, e.2.2.symm⟩

/-- Feeding `n` copies of one valid frame to an empty aggregator of capacity `n`
publishes one record, whose sum is the 32-bit wrap of `n * rate`. -/
theorem feed_replicate_publish (n : Nat) (hn : 1 ≤ n) (buf : List Int) (hbuf : buf.length = n)
    (c : Int × List Nat) (hv : frameValid c.2 = true) :
    (feed n (DRState.start buf) (List.replicate n c)).published.map Record.view
      = [(n, List.replicate n (frameRate c.2), toInt32 ((n : Int) * frameRate c.2))] := by
  obtain ⟨⟨_, _, _, _, _, hpub⟩, _⟩ := feed_spec n hn buf hbuf (List.replicate n c)
  rw [hpub, validRates_replicate n c hv]
  have hq : (List.replicate n (frameRate c.2)).length / n = 1 := by
    rw [List.length_replicate]
    exact Nat.div_self (by omega)
  have hch : chunk n (List.replicate n (frameRate c.2)) 0 = List.replicate n (frameRate c.2) := by
    unfold chunk
    simp
  rw [hq]
  simp [List.range_succ, hch, sum_replicate_int]

/-- After `k` frames with the validity bit clear the counter holds the 32-bit wrap of `k`. -/
theorem feed_replicate_invalid (n : Nat) (buf : List Int) (c : Int × List Nat)
    (hv : frameValid c.2 = false) (k : Nat) :
    (feed n (DRState.start buf) (List.replicate k c)).invalid = toInt32 (k : Int) := by
  induction k with
  | zero => rfl
  | succ k ih =>
    rw [List.replicate_succ', feed_append, (data_received_invalid n c.1 _ c.2 hv).2.2.2.2, ih]
    push_cast
    exact toInt32_add _ _

theorem published_singleton (l : List Record) (v : Nat × List Int × Int)
    (h : l.map Record.view = [v]) :
    ∃ r, l = [r] ∧ r.nsamples = v.1 ∧ r.samples = v.2.1 ∧ r.sum = v.2.2 := by
  match l, h with
  | [r], h =>
    simp only [List.map_cons, List.map_nil, List.cons.injEq, and_true] at h
    exact ⟨r, rfl, by rw [← h]; rfl, by rw [← h]; rfl, by rw [← h]; rfl⟩

/-! ## Claims on the decoder and the aggregator -/

/-- C1: for every 6-byte frame whose validity bit (bit 4 of byte 0) is set, the
rate that `data_received` stores at `samples[count]` is the two's-complement
reading of the 22-bit value `raw = (byte3 mod 64)*65536 + byte4*256 + byte5`;
that reading lies in `[-2097152, 2097151]`, raw `0x200000` reads `-2097152` and
raw `0x1FFFFF` reads `+2097151` (also on the frames `minFrame`, `maxFrame`). -/
theorem C1_rate_is_twos_complement (nsamples : Nat) (hosttime : Int) (s : DRState)
    (data : List Nat) (_ : data.length = 6) (hbytes : ∀ b ∈ data, b < 256)
    (hvalid : (data.getD 0 0).testBit 4 = true) :
    (data_received nsamples hosttime s data).samples
        = s.samples.set s.count
            (twos22 ((data.getD 3 0 % 64) * 65536 + data.getD 4 0 * 256 + data.getD 5 0))
    ∧ -2097152 ≤ twos22 ((data.getD 3 0 % 64) * 65536 + data.getD 4 0 * 256 + data.getD 5 0)
    ∧ twos22 ((data.getD 3 0 % 64) * 65536 + data.getD 4 0 * 256 + data.getD 5 0) ≤ 2097151
    ∧ twos22 0x200000 = -2097152 ∧ twos22 0x1FFFFF = 2097151
    ∧ frameRate minFrame = -2097152 ∧ frameRate maxFrame = 2097151 := by
  have hv : frameValid data = true := by rw [frameValid_eq, hvalid]
  have hr := frameRate_range data hbytes
  rw [frameRate_eq data hbytes] at hr
  refine ⟨?_, hr.1, hr.2, by decide, by decide, by decide, by decide⟩
  rw [(data_received_valid nsamples hosttime s data hv).1, frameRate_eq data hbytes]

theorem C1_rate_is_twos_complement_witness :
    (data_received 6 0 (DRState.start [0, 0, 0, 0, 0, 0]) minFrame).samples
      = [-2097152, 0, 0, 0, 0, 0] :=
  (C1_rate_is_twos_complement 6 0 (DRState.start [0, 0, 0, 0, 0, 0]) minFrame
    (by decide) (by decide) (by decide)).1.trans (by decide)

/-- C4 (amended): for every N >= 1, from the empty aggregator, after any
sequence of calls the number of published records is the number of valid
samples so far divided by N (so a record is published exactly on the N-th,
2N-th, ... valid sample); the k-th record has nsamples = N, samples equal to
the k-th group of N valid rates in arrival order, and average sum/N where sum
is the sum of those samples reduced to a two's-complement 32-bit integer;
right after a publish count = 0 and sum = 0. With N = 6 and valid samples
[10,20,30,40,50,60] the record has sum 210, average 35, nsamples 6 and those
samples. -/
theorem C4_publish_every_n (n : Nat) (hn : 1 ≤ n) (buf : List Int) (hbuf : buf.length = n)
    (calls : List (Int × List Nat)) :
    (feed n (DRState.start buf) calls).published.length = (validRates calls).length / n
    ∧ (feed n (DRState.start buf) calls).published.map
          (fun r => (r.nsamples, r.samples, r.avg_rate))
        = (List.range ((validRates calls).length / n)).map
            (fun k => (n, chunk n (validRates calls) k,
              ((toInt32 (chunk n (validRates calls) k).sum : Int) : ℚ) / (n : ℚ)))
    ∧ ((validRates calls).length % n = 0 →
        (feed n (DRState.start buf) calls).count = 0 ∧ (feed n (DRState.start buf) calls).sum = 0)
    ∧ (feed 6 (DRState.start [0, 0, 0, 0, 0, 0]) sixFrames).published
        = [{ sync := 0, sum := 210, nsamples := 6, samples := [10, 20, 30, 40, 50, 60] }]
    ∧ Record.avg_rate { sync := 0, sum := 210, nsamples := 6, samples := [10, 20, 30, 40, 50, 60] }
        = 35
    ∧ (feed 6 (DRState.start [0, 0, 0, 0, 0, 0]) sixFrames).count = 0
    ∧ (feed 6 (DRState.start [0, 0, 0, 0, 0, 0]) sixFrames).sum = 0 := by
  obtain ⟨⟨hlen, hlt, _, _, hsum, hpub⟩, hcount⟩ := feed_spec n hn buf hbuf calls
  have hl := congrArg List.length hpub
  simp only [List.length_map, List.length_range] at hl
  refine ⟨hl, ?_, ?_, by decide, by norm_num [Record.avg_rate], by decide, by decide⟩
  · have hg := congrArg (List.map (fun v : Nat × List Int × Int =>
        (v.1, v.2.1, ((v.2.2 : Int) : ℚ) / (v.1 : ℚ)))) hpub
    simp only [List.map_map] at hg
    exact hg
  · intro h0
    have hc : (feed n (DRState.start buf) calls).count = 0 := by rw [hcount, h0]
    have hle : (validRates calls).length ≤ (validRates calls).length / n * n := by
      rw [hc] at hlen
      omega
    refine ⟨hc, ?_⟩
    rw [hsum, List.drop_of_length_le hle]
    rfl

theorem C4_publish_every_n_witness :
    (feed 6 (DRState.start [0, 0, 0, 0, 0, 0]) sixFrames).published.length
      = (validRates sixFrames).length / 6 :=
  (C4_publish_every_n 6 (by decide) [0, 0, 0, 0, 0, 0] rfl sixFrames).1

/-- C4 as stated fails: with N = 1025 and 1025 valid samples of rate 2097151 the
published record holds exactly those samples, yet its average (computed from
the sum -2145387521) is not their sum 2149579775 divided by N. -/
theorem C4_counterexample :
    ∃ r ∈ (feed 1025 (DRState.start (List.replicate 1025 0))
        (List.replicate 1025 (0, maxFrame))).published,
      r.nsamples = 1025 ∧ r.samples = List.replicate 1025 2097151
      ∧ r.samples.sum = 2149579775 ∧ r.avg_rate ≠ (2149579775 : ℚ) / 1025 := by
  have e : frameRate maxFrame = 2097151 := by decide
  have w : toInt32 (((1025 : Nat) : Int) * 2097151) = -2145387521 := by decide
  have h := feed_replicate_publish 1025 (by decide) (List.replicate 1025 0)
    (List.length_replicate _ _) (0, maxFrame) (by decide)
  rw [e, w] at h
  obtain ⟨r, hr, h1, h2, h3⟩ := published_singleton _ _ h
  refine ⟨r, by rw [hr]; exact List.mem_singleton_self r, h1, h2, ?_, ?_⟩
  · rw [h2, sum_replicate_int]
    decide
  · unfold Record.avg_rate
    rw [h1, h3]
    norm_num

/-- C5 (amended): for every N with 1 <= N <= 1024 and every sequence of frames,
the sum from which the average of a published record is computed equals the
exact integer sum of the N samples of the record, so its average is their
exact arithmetic mean. -/
theorem C5_sum_exact_up_to_1024 (n : Nat) (hn : 1 ≤ n) (hmax : n ≤ 1024) (buf : List Int)
    (hbuf : buf.length = n) (calls : List (Int × List Nat))
    (hbytes : ∀ c ∈ calls, ∀ b ∈ c.2, b < 256) :
    ∀ r ∈ (feed n (DRState.start buf) calls).published,
      r.samples.length = n ∧ r.sum = r.samples.sum
      ∧ r.avg_rate = (r.samples.sum : ℚ) / (n : ℚ) := by
  intro r hr
  obtain ⟨k, hk, e1, e2, e3⟩ := published_view n hn buf hbuf calls r hr
  have hin : ∀ x ∈ chunk n (validRates calls) k, -2097152 ≤ x ∧ x ≤ 2097151 := by
    intro x hx
    obtain ⟨c, hc, rfl⟩ := validRates_mem calls x
      (List.mem_of_mem_drop (List.mem_of_mem_take hx))
    exact frameRate_range c.2 (hbytes c hc)
  have hb := sum_bounds _ hin
  have hlen : (chunk n (validRates calls) k).length = n := by
    unfold chunk
    have h1 : (k + 1) * n ≤ (validRates calls).length / n * n := Nat.mul_le_mul_right n hk
    have h2 := Nat.div_mul_le_self (validRates calls).length n
    rw [Nat.add_mul, Nat.one_mul] at h1
    rw [List.length_take, List.length_drop]
    omega
  have hsum : r.sum = r.samples.sum := by
    rw [e3, e2]
    apply toInt32_of_range <;> omega
  refine ⟨by rw [e2, hlen], hsum, ?_⟩
  unfold Record.avg_rate
  rw [hsum, e1]

theorem C5_sum_exact_up_to_1024_witness :
    ∃ r ∈ (feed 6 (DRState.start [0, 0, 0, 0, 0, 0]) sixFrames).published,
      r.sum = 210 ∧ r.sum = r.samples.sum :=
  ⟨{ sync := 0, sum := 210, nsamples := 6, samples := [10, 20, 30, 40, 50, 60] },
    by decide, rfl,
    (C5_sum_exact_up_to_1024 6 (by decide) (by decide) [0, 0, 0, 0, 0, 0] rfl sixFrames
      (by decide) _ (by decide)).2.1⟩

/-- C5 as stated fails: with N = 2048 and 2048 valid samples of rate -2097152
the exact sum of the buffered samples is -4294967296 but the sum the average
is computed from at publish is 0. -/
theorem C5_counterexample :
    ∃ r ∈ (feed 2048 (DRState.start (List.replicate 2048 0))
        (List.replicate 2048 (0, minFrame))).published,
      r.samples = List.replicate 2048 (-2097152) ∧ r.samples.sum = -4294967296 ∧ r.sum = 0
      ∧ r.sum ≠ r.samples.sum := by
  have e : frameRate minFrame = -2097152 := by decide
  have w : toInt32 (((2048 : Nat) : Int) * -2097152) = 0 := by decide
  have h := feed_replicate_publish 2048 (by decide) (List.replicate 2048 0)
    (List.length_replicate _ _) (0, minFrame) (by decide)
  rw [e, w] at h
  obtain ⟨r, hr, _, h2, h3⟩ := published_singleton _ _ h
  have hs : r.samples.sum = -4294967296 := by
    rw [h2, sum_replicate_int]
    decide
  refine ⟨r, by rw [hr]; exact List.mem_singleton_self r, h2, hs, h3, ?_⟩
  rw [hs, h3]
  decide

/-- C6 (amended): for every frame whose validity bit (bit 4 of byte 0) is clear,
whatever its other bytes, `data_received` increments the invalid-sample counter
by 1 in 32-bit arithmetic (by exactly 1 whenever the counter is below
2147483647), leaves sum, count and the sample buffer unchanged and publishes no
record; for a frame whose validity bit is set the counter is unchanged. -/
theorem C6_invalid_counted (nsamples : Nat) (hosttime : Int) (s : DRState) (data : List Nat) :
    ((data.getD 0 0).testBit 4 = false →
        (data_received nsamples hosttime s data).invalid = toInt32 (s.invalid + 1)
        ∧ (-2147483648 ≤ s.invalid → s.invalid < 2147483647 →
            (data_received nsamples hosttime s data).invalid = s.invalid + 1)
        ∧ (data_received nsamples hosttime s data).sum = s.sum
        ∧ (data_received nsamples hosttime s data).count = s.count
        ∧ (data_received nsamples hosttime s data).samples = s.samples
        ∧ (data_received nsamples hosttime s data).published = s.published)
    ∧ ((data.getD 0 0).testBit 4 = true →
        (data_received nsamples hosttime s data).invalid = s.invalid) := by
  constructor
  · intro h
    have hv : frameValid data = false := by rw [frameValid_eq, h]
    obtain ⟨e1, e2, e3, e4, e5⟩ := data_received_invalid nsamples hosttime s data hv
    refine ⟨e5, ?_, e1, e2, e3, e4⟩
    intro hlo hhi
    rw [e5]
    exact toInt32_of_range _ (by omega) (by omega)
  · intro h
    have hv : frameValid data = true := by rw [frameValid_eq, h]
    exact (data_received_valid nsamples hosttime s data hv).2

theorem C6_invalid_counted_witness :
    (data_received 6 0 (DRState.start [0, 0, 0, 0, 0, 0]) [0, 0, 0, 0, 0, 0]).invalid = 0 + 1
    ∧ (data_received 6 0 (DRState.start [0, 0, 0, 0, 0, 0]) minFrame).invalid = 0 :=
  ⟨((C6_invalid_counted 6 0 (DRState.start [0, 0, 0, 0, 0, 0]) [0, 0, 0, 0, 0, 0]).1
      (by decide)).2.1 (by decide) (by decide),
   (C6_invalid_counted 6 0 (DRState.start [0, 0, 0, 0, 0, 0]) minFrame).2 (by decide)⟩

/-- C6 as stated fails: from program start, after 2147483647 frames with the
validity bit clear the counter is 2147483647, and the next such frame leaves it
at -2147483648 instead of incrementing it by 1. -/
theorem C6_counterexample :
    (feed 6 (DRState.start [0, 0, 0, 0, 0, 0])
        (List.replicate 2147483647 (0, [0, 0, 0, 0, 0, 0]))).invalid = 2147483647
    ∧ (data_received 6 0 (feed 6 (DRState.start [0, 0, 0, 0, 0, 0])
        (List.replicate 2147483647 (0, [0, 0, 0, 0, 0, 0]))) [0, 0, 0, 0, 0, 0]).invalid
        = -2147483648 := by
  have h := feed_replicate_invalid 6 [0, 0, 0, 0, 0, 0] (0, [0, 0, 0, 0, 0, 0]) (by decide)
    2147483647
  have w : toInt32 ((2147483647 : Nat) : Int) = 2147483647 := by decide
  rw [w] at h
  refine ⟨h, ?_⟩
  rw [(data_received_invalid 6 0 _ [0, 0, 0, 0, 0, 0] (by decide)).2.2.2.2, h]
  decide

/-- C9 (amended): for every sequence of (validity, rate, phase) tuples with rate
in [-2097152, 2097151], encoded frame by frame as `Encodes` allows, decoding
with `data_received` reproduces the validity of every tuple and the rate of
every tuple whose validity is set, in order: a frame of a valid tuple stores
exactly the tuple's rate, a frame of an invalid tuple is counted and nothing
else of the aggregator changes, the call returning before the rate expression
is evaluated. (That expression, lines 64-70, yields the tuple's rate on every
encoded frame.) -/
theorem C9_round_trip (ts : List Reading) (fs : List (List Nat))
    (henc : List.Forall₂ Encodes ts fs)
    (hrange : ∀ t ∈ ts, -2097152 ≤ t.rate ∧ t.rate ≤ 2097151) :
    fs.map frameValid = ts.map Reading.validity
    ∧ (fs.filter frameValid).map frameRate = (ts.filter Reading.validity).map Reading.rate
    ∧ List.Forall₂ (fun t f => ∀ nsamples hosttime s,
        (t.validity = true →
          (data_received nsamples hosttime s f).samples = s.samples.set s.count t.rate
          ∧ (data_received nsamples hosttime s f).invalid = s.invalid)
        ∧ (t.validity = false →
          (data_received nsamples hosttime s f).invalid = toInt32 (s.invalid + 1)
          ∧ (data_received nsamples hosttime s f).sum = s.sum
          ∧ (data_received nsamples hosttime s f).count = s.count
          ∧ (data_received nsamples hosttime s f).samples = s.samples
          ∧ (data_received nsamples hosttime s f).published = s.published)) ts fs
    ∧ fs.map frameRate = ts.map Reading.rate := by
  induction henc with
  | nil => exact ⟨rfl, rfl, List.Forall₂.nil, rfl⟩
  | @cons t f ts fs htf _ ih =>
    obtain ⟨i1, i2, i3, i4⟩ := ih (fun t ht => hrange t (List.mem_cons_of_mem _ ht))
    have hr := hrange t (List.mem_cons_self t ts)
    obtain ⟨dv, dr⟩ := Encodes_decode t f htf hr.1 hr.2
    refine ⟨?_, ?_, List.Forall₂.cons ?_ i3, ?_⟩
    · rw [List.map_cons, List.map_cons, dv, i1]
    · cases hv : t.validity with
      | true =>
        rw [List.filter_cons_of_pos (by rw [dv, hv]), List.filter_cons_of_pos (by rw [hv]),
          List.map_cons, List.map_cons, dr, i2]
      | false =>
        rw [List.filter_cons_of_neg (by rw [dv, hv]; decide),
          List.filter_cons_of_neg (by rw [hv]; decide), i2]
    · intro nsamples hosttime s
      constructor
      · intro hv
        have h := data_received_valid nsamples hosttime s f (by rw [dv, hv])
        rw [dr] at h
        exact h
      · intro hv
        obtain ⟨e1, e2, e3, e4, e5⟩ :=
          data_received_invalid nsamples hosttime s f (by rw [dv, hv])
        exact ⟨e5, e1, e2, e3, e4⟩
    · rw [List.map_cons, List.map_cons, dr, i4]

theorem C9_round_trip_witness :
    [encode ⟨true, -5, 2⟩, encode ⟨false, 7, 3⟩].map frameValid = [true, false]
    ∧ ([encode ⟨true, -5, 2⟩, encode ⟨false, 7, 3⟩].filter frameValid).map frameRate = [-5] :=
  have h := C9_round_trip [⟨true, -5, 2⟩, ⟨false, 7, 3⟩]
    [encode ⟨true, -5, 2⟩, encode ⟨false, 7, 3⟩]
    (List.Forall₂.cons (by decide) (List.Forall₂.cons (by decide) List.Forall₂.nil))
    (by decide)
  ⟨h.1, h.2.1⟩

/-- C9 as stated fails: the tuples (invalid, 5, phase 0) and (invalid, 7, phase 0)
are encoded by the frames [0,0,0,0,0,5] and [0,0,0,0,0,7], and `data_received`
does exactly the same on both, so the rate of a tuple whose validity is clear
is not reproduced. -/
theorem C9_counterexample :
    Encodes ⟨false, 5, 0⟩ [0, 0, 0, 0, 0, 5] ∧ Encodes ⟨false, 7, 0⟩ [0, 0, 0, 0, 0, 7]
    ∧ data_received 6 0 (DRState.start [0, 0, 0, 0, 0, 0]) [0, 0, 0, 0, 0, 5]
        = data_received 6 0 (DRState.start [0, 0, 0, 0, 0, 0]) [0, 0, 0, 0, 0, 7] := by
  decide

/-- C10: for every N >= 1, starting from count = 0, after any sequence of
`data_received` calls (valid or invalid frames) count < N holds on return,
count equals the number of valid frames processed so far mod N, and the buffer
still has N cells; so the index `count` of the write `samples[count]` made by
the next call lies in [0, N). -/
theorem C10_count_below_n (n : Nat) (hn : 1 ≤ n) (buf : List Int) (hbuf : buf.length = n)
    (calls : List (Int × List Nat)) :
    (feed n (DRState.start buf) calls).count < n
    ∧ (feed n (DRState.start buf) calls).count
        = (calls.filter (fun c => frameValid c.2)).length % n
    ∧ (feed n (DRState.start buf) calls).samples.length = n
    ∧ (feed n (DRState.start buf) calls).count
        < (feed n (DRState.start buf) calls).samples.length := by
  obtain ⟨⟨_, hlt, hsl, _⟩, hcount⟩ := feed_spec n hn buf hbuf calls
  refine ⟨hlt, ?_, hsl, by rw [hsl]; exact hlt⟩
  rw [hcount, validRates_length]

theorem C10_count_below_n_witness :
    (feed 6 (DRState.start [0, 0, 0, 0, 0, 0]) sixFrames).count < 6 :=
  (C10_count_below_n 6 (by decide) [0, 0, 0, 0, 0, 0] rfl sixFrames).1

/-! ## Elementary facts about `step` and `run` -/

theorem run_succ (s0 : LoopState) (bs : List Nat) (t : Nat) (h : t < bs.length) :
    run s0 (bs.take (t + 1)) = (step (run s0 (bs.take t)) (bs.getD t 0)).1 := by
  unfold run
  rw [List.take_succ, List.foldl_append]
  simp [List.getElem?_eq_getElem h, List.getD_eq_getElem?_getD]

theorem getD_set (l : List Nat) (i j a : Nat) (h : i < l.length) :
    (l.set i a).getD j 0 = if j = i then a else l.getD j 0 := by
  simp only [List.getD_eq_getElem?_getD, List.getElem?_set]
  by_cases hji : j = i
  · subst hji
    simp [h]
  · have : ¬ i = j := fun e => hji e.symm
    simp [hji, this]

theorem zeroed_getD (counts : List Nat) (h : counts.length = 6) (p : Nat) :
    ((List.range 6).foldl (fun cs j => cs.set j 0) counts).getD p 0 = 0 := by
  match counts, h with
  | [a, b, c, d, e, f], _ =>
    have e0 : (List.range 6).foldl (fun cs j => cs.set j 0) [a, b, c, d, e, f]
        = [0, 0, 0, 0, 0, 0] := rfl
    rw [e0]
    rcases p with _ | _ | _ | _ | _ | _ | _ <;> rfl

theorem zeroed_length (counts : List Nat) :
    ((List.range 6).foldl (fun cs j => cs.set j 0) counts).length = counts.length := by
  simp [List.range, List.range.loop]

theorem step_sized (s : LoopState) (c : Nat) (h : s.Sized) : (step s c).1.Sized := by
  obtain ⟨h1, h2, h3⟩ := h
  unfold step LoopState.Sized
  cases hs : s.state <;> simp only [] <;> (try split_ifs) <;>
    simp [h1, h2, h3, zeroed_length]

theorem run_sized (s0 : LoopState) (h : s0.Sized) (bs : List Nat) : (run s0 bs).Sized := by
  induction bs using List.reverseRecOn with
  | nil => exact h
  | append_singleton bs c ih =>
    unfold run at ih ⊢
    rw [List.foldl_append]
    exact step_sized _ c ih

theorem step_startup (s : LoopState) (c : Nat) (h : s.state = .STARTUP) :
    (step s c).1.state = .ACQUIRE1 ∧ (step s c).1.i = 0
    ∧ (step s c).1.counts = (List.range 6).foldl (fun cs j => cs.set j 0) s.counts
    ∧ (step s c).2 = .idle := by
  unfold step
  simp [h]

theorem step_acquire1 (s : LoopState) (c : Nat) (h : s.state = .ACQUIRE1) :
    (step s c).1.state = (if s.i + 1 = 6 then .ACQUIRE2 else .ACQUIRE1)
    ∧ (step s c).1.i = (if s.i + 1 = 6 then 0 else s.i + 1)
    ∧ (step s c).1.counts = s.counts
    ∧ (step s c).1.last = s.last.set s.i (syncBits c)
    ∧ (step s c).2 = .idle := by
  unfold step
  simp only [h]
  split_ifs <;> simp

theorem step_acquire2_lock (s : LoopState) (c : Nat) (h : s.state = .ACQUIRE2)
    (hi : s.i < s.counts.length)
    (hm : syncBits c = (s.last.getD s.i 0 + 1) % 4)
    (hc : 10 ≤ (s.counts.getD s.i 0 + 1) % 256) :
    (step s c).1.state = .LOCKED ∧ (step s c).1.i = 1
    ∧ (step s c).1.lastsync = syncBits c
    ∧ (step s c).2 = .idle := by
  unfold step
  simp only [h]
  rw [if_pos hm]
  simp only [getD_set _ _ _ _ hi, if_true]
  rw [if_pos hc]
  simp

theorem step_acquire2_count (s : LoopState) (c : Nat) (h : s.state = .ACQUIRE2)
    (hi : s.i < s.counts.length)
    (hm : syncBits c = (s.last.getD s.i 0 + 1) % 4)
    (hc : ¬ 10 ≤ (s.counts.getD s.i 0 + 1) % 256) :
    (step s c).1.state = .ACQUIRE2 ∧ (step s c).1.i = (s.i + 1) % 6
    ∧ (step s c).1.counts = s.counts.set s.i ((s.counts.getD s.i 0 + 1) % 256)
    ∧ (step s c).1.last = s.last.set s.i (syncBits c)
    ∧ (step s c).2 = .idle := by
  unfold step
  simp only [h]
  rw [if_pos hm]
  simp only [getD_set _ _ _ _ hi, if_true]
  rw [if_neg hc]
  simp

theorem step_acquire2_reset (s : LoopState) (c : Nat) (h : s.state = .ACQUIRE2)
    (hm : ¬ syncBits c = (s.last.getD s.i 0 + 1) % 4) :
    (step s c).1.state = .ACQUIRE2 ∧ (step s c).1.i = (s.i + 1) % 6
    ∧ (step s c).1.counts = s.counts.set s.i 0
    ∧ (step s c).1.last = s.last.set s.i (syncBits c)
    ∧ (step s c).2 = .idle := by
  unfold step
  simp only [h]
  rw [if_neg hm]
  simp

theorem step_locked_mismatch (s : LoopState) (c : Nat) (h : s.state = .LOCKED) (hi : s.i = 0)
    (hm : syncBits c ≠ (s.lastsync + 1) % 4) :
    (step s c).1.state = .STARTUP ∧ (step s c).2 = .lostSync := by
  unfold step
  simp [h, hi, hm]

theorem step_locked_match (s : LoopState) (c : Nat) (h : s.state = .LOCKED) (hi : s.i = 0)
    (hm : syncBits c = (s.lastsync + 1) % 4) :
    (step s c).1.state = .LOCKED ∧ (step s c).1.lastsync = syncBits c
    ∧ (step s c).1.i = 1 ∧ (step s c).2 = .idle := by
  unfold step
  simp [h, hi, hm]

theorem step_locked_inside (s : LoopState) (c : Nat) (h : s.state = .LOCKED) (hi : s.i ≠ 0) :
    (step s c).1.state = .LOCKED ∧ (step s c).1.lastsync = s.lastsync
    ∧ (step s c).1.i = (s.i + 1) % 6
    ∧ (step s c).2 = (if s.i = 5 then .frame (s.data.set s.i (c % 256)) else .idle) := by
  unfold step
  simp only [h]
  rw [if_neg hi]
  split_ifs <;> simp

/-! ## Soundness of the lock statistics -/

theorem acq2_advance (bs : List Nat) (m t : Nat) (s s' : LoopState) (hsz : s.Sized)
    (hinv : Acq2Inv bs m t s) (v : Nat)
    (hi' : s'.i = (s.i + 1) % 6) (hc' : s'.counts = s.counts.set s.i v)
    (hl' : s'.last = s.last.set s.i (phaseAt bs t))
    (hv : v < 10) (hv2 : m + 1 + 6 * v ≤ t)
    (hrun : ∀ k, k < v → phaseAt bs (t - 6 * k) = (phaseAt bs (t - 6 * k - 6) + 1) % 4) :
    Acq2Inv bs m (t + 1) s' := by
  obtain ⟨hi, hmt, hmod, hpos⟩ := hinv
  obtain ⟨_, hcl, hll⟩ := hsz
  refine ⟨by rw [hi']; omega, by omega, by rw [hi']; omega, ?_⟩
  intro p hp q hq
  rw [hi'] at hq
  rw [hc', hl', getD_set _ _ _ _ (by omega), getD_set _ _ _ _ (by omega)]
  by_cases hpi : p = s.i
  · have hqt : q = t := by omega
    subst hqt
    simp only [hpi, if_true]
    exact ⟨trivial, hv, hv2, hrun⟩
  · simp only [hpi, if_false]
    exact hpos p hp q (by omega)

theorem acq2_step (bs : List Nat) (m t : Nat) (s : LoopState) (hs : s.state = .ACQUIRE2)
    (hsz : s.Sized) (hinv : Acq2Inv bs m t s) :
    ((step s (bs.getD t 0)).1.state = .ACQUIRE2
        ∧ Acq2Inv bs m (t + 1) (step s (bs.getD t 0)).1)
    ∨ ((step s (bs.getD t 0)).1.state = .LOCKED ∧ m + 61 ≤ t
        ∧ ∀ k, k < 10 → phaseAt bs (t - 6 * k) = (phaseAt bs (t - 6 * k - 6) + 1) % 4) := by
  have hinv0 := hinv
  obtain ⟨hi, hmt, hmod, hpos⟩ := hinv
  obtain ⟨hl, hc, h6, hk⟩ := hpos s.i hi (t - 6) (by omega)
  have hcl : s.i < s.counts.length := by rw [hsz.2.1]; exact hi
  have hstep : ∀ v, (∀ k, k < v → phaseAt bs (t - 6 - 6 * k)
        = (phaseAt bs (t - 6 - 6 * k - 6) + 1) % 4) →
      phaseAt bs t = (phaseAt bs (t - 6) + 1) % 4 →
      ∀ k, k < v + 1 → phaseAt bs (t - 6 * k) = (phaseAt bs (t - 6 * k - 6) + 1) % 4 := by
    intro v hv h0 k hk'
    cases k with
    | zero => simpa using h0
    | succ k =>
      have e1 : t - 6 * (k + 1) = t - 6 - 6 * k := by omega
      rw [e1]
      exact hv k (by omega)
  by_cases hm : syncBits (bs.getD t 0) = (s.last.getD s.i 0 + 1) % 4
  · have h0 : phaseAt bs t = (phaseAt bs (t - 6) + 1) % 4 := by
      rw [← hl]
      exact hm
    by_cases hten : 10 ≤ (s.counts.getD s.i 0 + 1) % 256
    · right
      obtain ⟨e1, _⟩ := step_acquire2_lock s _ hs hcl hm hten
      have h9 : s.counts.getD s.i 0 = 9 := by omega
      refine ⟨e1, by omega, ?_⟩
      exact hstep 9 (fun k hk' => hk k (by omega)) h0
    · left
      obtain ⟨e1, e2, e3, e4, _⟩ := step_acquire2_count s _ hs hcl hm hten
      have hlt : s.counts.getD s.i 0 + 1 < 10 := by omega
      refine ⟨e1, acq2_advance bs m t s _ hsz hinv0 (s.counts.getD s.i 0 + 1) e2 ?_ e4
        hlt (by omega) (hstep _ hk h0)⟩
      rw [e3, Nat.mod_eq_of_lt (by omega)]
  · left
    obtain ⟨e1, e2, e3, e4, _⟩ := step_acquire2_reset s _ hs hm
    exact ⟨e1, acq2_advance bs m t s _ hsz hinv0 0 e2 e3 e4 (by omega) (by omega)
      (fun k hk' => absurd hk' (Nat.not_lt_zero k))⟩

theorem Since_succ (s0 : LoopState) (bs : List Nat) (m t : Nat) (h : Since s0 bs m t)
    (hne : (run s0 (bs.take (t + 1))).state ≠ .STARTUP) : Since s0 bs m (t + 1) := by
  obtain ⟨h1, h2, h3⟩ := h
  refine ⟨by omega, h2, ?_⟩
  intro j hj1 hj2
  by_cases hjt : j = t + 1
  · rw [hjt]; exact hne
  · exact h3 j hj1 (by omega)

theorem acq1_step (bs : List Nat) (m t : Nat) (s : LoopState) (hs : s.state = .ACQUIRE1)
    (hsz : s.Sized) (hinv : Acq1Inv bs m t s) :
    ((step s (bs.getD t 0)).1.state = .ACQUIRE1
        ∧ Acq1Inv bs m (t + 1) (step s (bs.getD t 0)).1)
    ∨ ((step s (bs.getD t 0)).1.state = .ACQUIRE2
        ∧ Acq2Inv bs m (t + 1) (step s (bs.getD t 0)).1) := by
  obtain ⟨hi, ht, hc, hl⟩ := hinv
  obtain ⟨e1, e2, e3, e4, _⟩ := step_acquire1 s (bs.getD t 0) hs
  have hll : s.i < s.last.length := by rw [hsz.2.2]; exact hi
  have hlast : ∀ p, p < s.i + 1 →
      (step s (bs.getD t 0)).1.last.getD p 0 = phaseAt bs (m + 1 + p) := by
    intro p hp
    rw [e4, getD_set _ _ _ _ hll]
    by_cases hpi : p = s.i
    · simp only [hpi, if_true]
      rw [← ht]
      rfl
    · simp only [hpi, if_false]
      exact hl p (by omega)
  by_cases h6 : s.i + 1 = 6
  · right
    rw [if_pos h6] at e1 e2
    refine ⟨e1, by rw [e2]; omega, by omega, by rw [e2]; omega, ?_⟩
    intro p hp q hq
    rw [e2] at hq
    have hq' : q = m + 1 + p := by omega
    rw [hq', e3, hc p]
    exact ⟨hlast p (by omega), by omega, by omega, fun k hk => absurd hk (Nat.not_lt_zero k)⟩
  · left
    rw [if_neg h6] at e1 e2
    refine ⟨e1, by rw [e2]; omega, by rw [e2]; omega, by rw [e3]; exact hc, ?_⟩
    rw [e2]
    exact hlast

theorem syncInv (s0 : LoopState) (h0 : s0.state = .STARTUP) (hsz : s0.Sized) (bs : List Nat)
    (t : Nat) (ht : t ≤ bs.length) : SyncInv s0 bs t := by
  induction t with
  | zero =>
    unfold SyncInv
    have : (run s0 (bs.take 0)).state = .STARTUP := h0
    rw [this]
    trivial
  | succ t ih =>
    have ih := ih (by omega)
    have hs := run_succ s0 bs t (by omega)
    have hz := run_sized s0 hsz (bs.take t)
    unfold SyncInv at ih ⊢
    cases hst : (run s0 (bs.take t)).state with
    | STARTUP =>
      obtain ⟨e1, e2, e3, _⟩ := step_startup (run s0 (bs.take t)) (bs.getD t 0) hst
      rw [← hs] at e1 e2 e3
      rw [e1]
      refine ⟨t, ⟨by omega, hst, ?_⟩, by rw [e2]; omega, by rw [e2], ?_, ?_⟩
      · intro j hj1 hj2
        have : j = t + 1 := by omega
        rw [this, e1]
        decide
      · intro p
        rw [e3]
        exact zeroed_getD _ hz.2.1 p
      · intro p hp
        rw [e2] at hp
        exact absurd hp (Nat.not_lt_zero p)
    | ACQUIRE1 =>
      rw [hst] at ih
      obtain ⟨m, hsince, hinv⟩ := ih
      rcases acq1_step bs m t _ hst hz hinv with ⟨e1, h⟩ | ⟨e1, h⟩
      · rw [← hs] at e1 h
        rw [e1]
        exact ⟨m, Since_succ s0 bs m t hsince (by rw [e1]; decide), h⟩
      · rw [← hs] at e1 h
        rw [e1]
        exact ⟨m, Since_succ s0 bs m t hsince (by rw [e1]; decide), h⟩
    | ACQUIRE2 =>
      rw [hst] at ih
      obtain ⟨m, hsince, hinv⟩ := ih
      rcases acq2_step bs m t _ hst hz hinv with ⟨e1, h⟩ | ⟨e1, _⟩
      · rw [← hs] at e1 h
        rw [e1]
        exact ⟨m, Since_succ s0 bs m t hsince (by rw [e1]; decide), h⟩
      · rw [← hs] at e1
        rw [e1]
        trivial
    | LOCKED =>
      have hl : (run s0 (bs.take (t + 1))).state = .LOCKED
          ∨ (run s0 (bs.take (t + 1))).state = .STARTUP := by
        rw [hs]
        by_cases hi : (run s0 (bs.take t)).i = 0
        · by_cases hm : syncBits (bs.getD t 0) = ((run s0 (bs.take t)).lastsync + 1) % 4
          · exact Or.inl (step_locked_match _ _ hst hi hm).1
          · exact Or.inr (step_locked_mismatch _ _ hst hi hm).1
        · exact Or.inl (step_locked_inside _ _ hst hi).1
      rcases hl with hl | hl <;> rw [hl] <;> trivial

/-- C2: whenever `read_loop`, started in `STARTUP`, moves from `ACQUIRE2` to
`LOCKED` on the character at stream index `n`, there is an index `m` with
`m + 61 <= n` such that character `m` was consumed in `STARTUP` and no
character after it up to `n` was (so the eleven characters at indices
`n-60, n-54, ..., n-6, n` exist and were consumed since the last `STARTUP`),
and each of the ten characters `n-54, ..., n` has the phase of the character
6 places before it plus 1 mod 4: ten consecutive correct phase increments at
one cyclic position. -/
theorem C2_lock_after_ten_increments (s0 : LoopState) (h0 : s0.state = .STARTUP)
    (hsz : s0.Sized) (bs : List Nat) (n : Nat) (hn : n < bs.length)
    (hA : (run s0 (bs.take n)).state = .ACQUIRE2)
    (hL : (run s0 (bs.take (n + 1))).state = .LOCKED) :
    ∃ m, m + 61 ≤ n ∧ (run s0 (bs.take m)).state = .STARTUP
      ∧ (∀ j, m < j → j ≤ n → (run s0 (bs.take j)).state ≠ .STARTUP)
      ∧ ∀ k, k < 10 →
          syncBits (bs.getD (n - 6 * k) 0) = (syncBits (bs.getD (n - 6 * k - 6) 0) + 1) % 4 := by
  have hinv := syncInv s0 h0 hsz bs n (by omega)
  unfold SyncInv at hinv
  rw [hA] at hinv
  obtain ⟨m, ⟨_, hs1, hs2⟩, hacq⟩ := hinv
  rcases acq2_step bs m n _ hA (run_sized s0 hsz _) hacq with ⟨e1, _⟩ | ⟨_, h61, hk⟩
  · rw [← run_succ s0 bs n hn, hL] at e1
    exact absurd e1 (by decide)
  · exact ⟨m, h61, hs1, hs2, hk⟩

set_option maxRecDepth 100000 in
theorem C2_lock_after_ten_increments_witness :
    ∃ m, m + 61 ≤ 66 ∧ (run entry0 (cleanStream.take m)).state = .STARTUP
      ∧ (∀ j, m < j → j ≤ 66 → (run entry0 (cleanStream.take j)).state ≠ .STARTUP)
      ∧ ∀ k, k < 10 →
          syncBits (cleanStream.getD (66 - 6 * k) 0)
            = (syncBits (cleanStream.getD (66 - 6 * k - 6) 0) + 1) % 4 :=
  C2_lock_after_ten_increments entry0 rfl ⟨rfl, rfl, rfl⟩ cleanStream 66 (by decide)
    (by decide) (by decide)

/-! ## Loss of lock -/

theorem step_idle_of_not_locked (s : LoopState) (c : Nat) (h : s.state ≠ .LOCKED) :
    (step s c).2 = .idle := by
  unfold step
  cases hs : s.state with
  | LOCKED => exact absurd hs h
  | STARTUP => rfl
  | ACQUIRE1 => simp only []; split_ifs <;> rfl
  | ACQUIRE2 => simp only []; split_ifs <;> rfl

theorem actions_idle (s : LoopState) (bs : List Nat)
    (h : ∀ t, t < bs.length → (run s (bs.take t)).state ≠ .LOCKED) :
    actions s bs = List.replicate bs.length .idle := by
  induction bs generalizing s with
  | nil => rfl
  | cons c bs ih =>
    have h0 : s.state ≠ .LOCKED := h 0 (by simp)
    rw [actions, step_idle_of_not_locked s c h0, List.length_cons, List.replicate_succ]
    congr 1
    apply ih
    intro t ht
    exact h (t + 1) (by simp; omega)

/-- From `STARTUP` the loop cannot be `LOCKED` before it has consumed 62 characters. -/
theorem not_locked_early (s0 : LoopState) (h0 : s0.state = .STARTUP) (hsz : s0.Sized)
    (bs : List Nat) (t : Nat) (ht : t ≤ bs.length) (h61 : t ≤ 61) :
    (run s0 (bs.take t)).state ≠ .LOCKED := by
  induction t with
  | zero =>
    have : (run s0 (bs.take 0)).state = .STARTUP := h0
    rw [this]
    decide
  | succ t ih =>
    have ih := ih (by omega) (by omega)
    have hs := run_succ s0 bs t (by omega)
    have hz := run_sized s0 hsz (bs.take t)
    have hinv := syncInv s0 h0 hsz bs t (by omega)
    unfold SyncInv at hinv
    cases hst : (run s0 (bs.take t)).state with
    | LOCKED => exact absurd hst ih
    | STARTUP =>
      rw [hs, (step_startup _ _ hst).1]
      decide
    | ACQUIRE1 =>
      rw [hs, (step_acquire1 _ _ hst).1]
      split_ifs <;> decide
    | ACQUIRE2 =>
      rw [hst] at hinv
      obtain ⟨m, _, hacq⟩ := hinv
      rcases acq2_step bs m t _ hst hz hacq with ⟨e1, _⟩ | ⟨_, hm, _⟩
      · rw [hs, e1]
        decide
      · omega

set_option maxRecDepth 100000 in
theorem flip_changes_phase :
    ∀ c, c < 256 → syncBits (c ^^^ 64) ≠ syncBits c ∧ syncBits (c ^^^ 128) ≠ syncBits c := by
  decide

/-- C3: in state `LOCKED` with cursor `i = 0`, for every character whose phase
differs from `(lastsync+1) mod 4` the iteration moves to `STARTUP`, prints the
lost-sync line exactly once, and calls neither `data_received` nor (through it)
the publisher; during the next 62 characters, whatever they are, the loop does
nothing but update its locals, so the frame that character begins is never
handed to the decoder. Flipping either phase bit of a byte changes its phase,
so a first byte with one corrupted phase bit is such a character. When the
phase matches, the state stays `LOCKED`, `lastsync` becomes that phase and
nothing is printed or called. -/
theorem C3_phase_error_resyncs (nsamples : Nat) (k : Driver) (c : Nat) (hosttime : Int)
    (hL : k.loop.state = .LOCKED) (hi : k.loop.i = 0) (hsz : k.loop.Sized) :
    (syncBits c ≠ (k.loop.lastsync + 1) % 4 →
        (read_loop_iter nsamples k c hosttime).loop.state = .STARTUP
        ∧ (read_loop_iter nsamples k c hosttime).lost = k.lost + 1
        ∧ (read_loop_iter nsamples k c hosttime).dr = k.dr
        ∧ (step k.loop c).2 = .lostSync
        ∧ ∀ rest : List Nat, rest.length ≤ 62 →
            actions (read_loop_iter nsamples k c hosttime).loop rest
              = List.replicate rest.length .idle)
    ∧ (syncBits c = (k.loop.lastsync + 1) % 4 →
        (read_loop_iter nsamples k c hosttime).loop.state = .LOCKED
        ∧ (read_loop_iter nsamples k c hosttime).loop.lastsync = syncBits c
        ∧ (read_loop_iter nsamples k c hosttime).lost = k.lost
        ∧ (read_loop_iter nsamples k c hosttime).dr = k.dr)
    ∧ (∀ b, b < 256 → syncBits (b ^^^ 64) ≠ syncBits b ∧ syncBits (b ^^^ 128) ≠ syncBits b) := by
  refine ⟨?_, ?_, flip_changes_phase⟩
  · intro hm
    obtain ⟨e1, e2⟩ := step_locked_mismatch k.loop c hL hi hm
    have hit : read_loop_iter nsamples k c hosttime
        = { k with loop := (step k.loop c).1, lost := k.lost + 1 } := by
      unfold read_loop_iter
      generalize step k.loop c = r at e2
      obtain ⟨l, a⟩ := r
      simp only at e2
      subst e2
      rfl
    rw [hit]
    refine ⟨e1, rfl, rfl, e2, ?_⟩
    intro rest hr
    apply actions_idle
    intro t ht
    exact not_locked_early _ e1 (step_sized _ _ hsz) rest t (by omega) (by omega)
  · intro hm
    obtain ⟨e1, e2, _, e4⟩ := step_locked_match k.loop c hL hi hm
    have hit : read_loop_iter nsamples k c hosttime = { k with loop := (step k.loop c).1 } := by
      unfold read_loop_iter
      generalize step k.loop c = r at e4
      obtain ⟨l, a⟩ := r
      simp only at e4
      subst e4
      rfl
    rw [hit]
    exact ⟨e1, e2, rfl, rfl⟩

theorem C3_phase_error_resyncs_witness :
    (read_loop_iter 6 lockedAtStart 0 0).loop.state = .STARTUP
    ∧ (read_loop_iter 6 lockedAtStart 0 0).lost = 1
    ∧ (read_loop_iter 6 lockedAtStart 64 0).loop.state = .LOCKED :=
  have h := C3_phase_error_resyncs 6 lockedAtStart 0 0 rfl rfl ⟨rfl, rfl, rfl⟩
  have h' := C3_phase_error_resyncs 6 lockedAtStart 64 0 rfl rfl ⟨rfl, rfl, rfl⟩
  ⟨(h.1 (by decide)).1, (h.1 (by decide)).2.1, (h'.2.1 (by decide)).1⟩

/-! ## Keeping the lock on a well-formed stream -/

theorem step_acquire2_locked_fields (s : LoopState) (c : Nat) (h : s.state = .ACQUIRE2)
    (hl : (step s c).1.state = .LOCKED) :
    (step s c).1.i = 1 ∧ (step s c).1.lastsync = syncBits c := by
  unfold step at hl ⊢
  simp only [h] at hl ⊢
  split_ifs at hl ⊢
  simp_all

theorem lock_held (s0 : LoopState) (bs : List Nat) (off : Nat) (hwf : WellFormed off bs)
    (n : Nat) (hn : n < bs.length) (hb : (n + off) % 6 = 0)
    (hA : (run s0 (bs.take n)).state = .ACQUIRE2)
    (hL : (run s0 (bs.take (n + 1))).state = .LOCKED) (d : Nat) (hd : n + 1 + d ≤ bs.length) :
    LockInv bs n (n + 1 + d) (run s0 (bs.take (n + 1 + d))) := by
  induction d with
  | zero =>
    have hs := run_succ s0 bs n hn
    rw [hs] at hL
    obtain ⟨e1, e2⟩ := step_acquire2_locked_fields _ _ hA hL
    rw [← hs] at e1 e2 hL
    refine ⟨hL, by rw [e1]; omega, ?_⟩
    intro q hq
    have : q = n := by omega
    rw [e2, this]
    rfl
  | succ d ih =>
    obtain ⟨h1, h2, h3⟩ := ih (by omega)
    have hs := run_succ s0 bs (n + 1 + d) (by omega)
    have hs' : run s0 (bs.take (n + 1 + (d + 1)))
        = (step (run s0 (bs.take (n + 1 + d))) (bs.getD (n + 1 + d) 0)).1 := hs
    rw [hs']
    by_cases hi : (run s0 (bs.take (n + 1 + d))).i = 0
    · have hq := h3 (n + 1 + d - 6) (by omega)
      have hw := hwf (n + 1 + d - 6) (by omega) (by omega)
      have e6 : n + 1 + d - 6 + 6 = n + 1 + d := by omega
      rw [e6] at hw
      obtain ⟨e1, e2, e3, _⟩ := step_locked_match _ (bs.getD (n + 1 + d) 0) h1 hi
        (by rw [hq]; exact hw)
      refine ⟨e1, by rw [e3]; omega, ?_⟩
      intro q hq'
      have : q = n + 1 + d := by omega
      rw [e2, this]
      rfl
    · obtain ⟨e1, e2, e3, _⟩ := step_locked_inside _ (bs.getD (n + 1 + d) 0) h1 hi
      refine ⟨e1, by rw [e3, h2]; omega, ?_⟩
      intro q hq'
      rw [e2]
      exact h3 q (by omega)

/-- C7 (amended): for every stream of frames whose first-byte phases increase by
1 mod 4 from frame to frame (all other bits arbitrary), starting at any offset
inside a frame, once `read_loop` has entered `LOCKED` on a character that is
the first byte of a frame it stays `LOCKED` for the rest of the stream: it does
not re-enter `STARTUP`, `ACQUIRE1` or `ACQUIRE2`. -/
theorem C7_lock_on_boundary_is_kept (s0 : LoopState) (bs : List Nat) (off : Nat)
    (hwf : WellFormed off bs) (n : Nat) (hn : n < bs.length) (hb : (n + off) % 6 = 0)
    (hA : (run s0 (bs.take n)).state = .ACQUIRE2)
    (hL : (run s0 (bs.take (n + 1))).state = .LOCKED) :
    ∀ t, n + 1 ≤ t → t ≤ bs.length → (run s0 (bs.take t)).state = .LOCKED := by
  intro t h1 h2
  have h := lock_held s0 bs off hwf n hn hb hA hL (t - (n + 1)) (by omega)
  have e : n + 1 + (t - (n + 1)) = t := by omega
  rw [e] at h
  exact h.1

set_option maxRecDepth 100000 in
theorem C7_lock_on_boundary_is_kept_witness :
    (run entry0 (cleanStream.take 66)).state = .ACQUIRE2
    ∧ (run entry0 (cleanStream.take 96)).state = .LOCKED :=
  ⟨by decide,
   C7_lock_on_boundary_is_kept entry0 cleanStream 0 (by decide) 66 (by decide) (by decide)
    (by decide) (by decide) 96 (by decide) (by decide)⟩

set_option maxRecDepth 100000 in
/-- C7 as stated fails: `decoyStream` is 16 well-formed frames starting at offset
0; `read_loop` locks on the second byte of the eleventh frame (index 61) and is
back in `STARTUP` after index 67. -/
theorem C7_counterexample :
    WellFormed 0 decoyStream ∧ decoyStream.length = 16 * 6
    ∧ (run entry0 (decoyStream.take 62)).state = .LOCKED
    ∧ (run entry0 (decoyStream.take 68)).state = .STARTUP := by
  decide

/-! ## Acquisition on a well-formed stream -/

theorem acq2_complete_step (bs : List Nat) (off t : Nat) (hoff : off < 6) (ht : t < bs.length)
    (hwf : WellFormed off bs) (s : LoopState) (hs : s.state = .ACQUIRE2) (hsz : s.Sized)
    (hinv : Acq2Inv bs 0 t s) (hc : CountInv off t s) :
    (step s (bs.getD t 0)).1.state = .LOCKED
    ∨ ((step s (bs.getD t 0)).1.state = .ACQUIRE2
        ∧ CountInv off (t + 1) (step s (bs.getD t 0)).1) := by
  obtain ⟨hi, hmt, hmod, hpos⟩ := hinv
  have hcl : s.i < s.counts.length := by rw [hsz.2.1]; exact hi
  obtain ⟨hl, hc10, _, _⟩ := hpos s.i hi (t - 6) (by omega)
  by_cases hm : syncBits (bs.getD t 0) = (s.last.getD s.i 0 + 1) % 4
  · by_cases hten : 10 ≤ (s.counts.getD s.i 0 + 1) % 256
    · exact Or.inl (step_acquire2_lock s _ hs hcl hm hten).1
    · right
      obtain ⟨e1, e2, e3, _⟩ := step_acquire2_count s _ hs hcl hm hten
      refine ⟨e1, ?_⟩
      intro q hq
      rw [e2] at hq
      rw [e3, getD_set _ _ _ _ hcl]
      by_cases hp : 5 - off = s.i
      · simp only [hp, if_true]
        have h1 := hc (t - 6) (by omega)
        rw [hp] at h1
        omega
      · simp only [hp, if_false]
        exact hc q (by omega)
  · right
    obtain ⟨e1, e2, e3, _⟩ := step_acquire2_reset s _ hs hm
    refine ⟨e1, ?_⟩
    intro q hq
    rw [e2] at hq
    rw [e3, getD_set _ _ _ _ hcl]
    by_cases hp : 5 - off = s.i
    · exfalso
      apply hm
      have hw := hwf (t - 6) (by omega) (by omega)
      have e6 : t - 6 + 6 = t := by omega
      rw [e6] at hw
      rw [hl]
      exact hw
    · simp only [hp, if_false]
      exact hc q (by omega)

theorem acqProgress (s0 : LoopState) (h0 : s0.state = .STARTUP) (hsz : s0.Sized)
    (bs : List Nat) (off : Nat) (hoff : off < 6) (hwf : WellFormed off bs) (t : Nat)
    (ht : t ≤ bs.length) : AcqProgress s0 bs off t := by
  induction t with
  | zero => exact Or.inr (Or.inl ⟨rfl, h0⟩)
  | succ t ih =>
    have hs := run_succ s0 bs t (by omega)
    have hz := run_sized s0 hsz (bs.take t)
    rcases ih (by omega) with ⟨u, hu, hl⟩ | ⟨ht0, hst⟩ | ⟨hst, hinv⟩ | ⟨hst, hinv, hc⟩
    · exact Or.inl ⟨u, by omega, hl⟩
    · obtain ⟨e1, e2, e3, _⟩ := step_startup _ (bs.getD t 0) hst
      rw [← hs] at e1 e2 e3
      refine Or.inr (Or.inr (Or.inl ⟨e1, by rw [e2]; omega, by rw [e2]; omega, ?_, ?_⟩))
      · intro p
        rw [e3]
        exact zeroed_getD _ hz.2.1 p
      · intro p hp
        rw [e2] at hp
        exact absurd hp (Nat.not_lt_zero p)
    · rcases acq1_step bs 0 t _ hst hz hinv with ⟨e1, h⟩ | ⟨e1, h⟩
      · rw [← hs] at e1 h
        exact Or.inr (Or.inr (Or.inl ⟨e1, h⟩))
      · rw [← hs] at e1 h
        refine Or.inr (Or.inr (Or.inr ⟨e1, h, ?_⟩))
        obtain ⟨hi, hmt, hmod, hpos⟩ := h
        obtain ⟨_, ht1, _, _⟩ := hinv
        intro q hq
        omega
    · rcases acq2_complete_step bs off t hoff (by omega) hwf _ hst hz hinv hc with e1 | ⟨e1, h⟩
      · rw [← hs] at e1
        exact Or.inl ⟨t + 1, by omega, e1⟩
      · rcases acq2_step bs 0 t _ hst hz hinv with ⟨_, h2⟩ | ⟨e2, _⟩
        · rw [← hs] at e1 h h2
          exact Or.inr (Or.inr (Or.inr ⟨e1, h2, h⟩))
        · rw [← hs] at e2
          exact Or.inl ⟨t + 1, by omega, e2⟩

/-- C8 (amended): for every stream of at least 16 frames whose first-byte phases
increase by 1 mod 4 from frame to frame, starting at any offset `off` in 0..5
inside a frame, `read_loop` started in `STARTUP` has entered `LOCKED` by the
time it has consumed `67 - off` characters of the stream, hence at most
(10*6)+6+1 = 67 characters counted from the first frame boundary. -/
theorem C8_locked_within_67 (s0 : LoopState) (h0 : s0.state = .STARTUP) (hsz : s0.Sized)
    (bs : List Nat) (off : Nat) (hoff : off < 6) (hlen : 16 * 6 ≤ bs.length + off)
    (hwf : WellFormed off bs) :
    ∃ t, t ≤ 67 - off ∧ t ≤ (6 - off) % 6 + 67 ∧ (run s0 (bs.take t)).state = .LOCKED := by
  rcases acqProgress s0 h0 hsz bs off hoff hwf (67 - off) (by omega) with
    ⟨u, hu, hl⟩ | ⟨ht0, _⟩ | ⟨_, hinv⟩ | ⟨_, hinv, hc⟩
  · exact ⟨u, hu, by omega, hl⟩
  · omega
  · obtain ⟨hi, ht, _⟩ := hinv
    omega
  · exfalso
    obtain ⟨hi, hmt, hmod, hpos⟩ := hinv
    have hq : 66 - off + 6
        = 67 - off + (5 - off + 6 - (run s0 (bs.take (67 - off))).i) % 6 := by omega
    have h1 := hc (66 - off) hq
    obtain ⟨_, h10, _⟩ := hpos (5 - off) (by omega) (66 - off) hq
    omega

set_option maxRecDepth 100000 in
theorem C8_locked_within_67_witness :
    ∃ t, t ≤ 67 - 0 ∧ t ≤ (6 - 0) % 6 + 67 ∧ (run entry0 (cleanStream.take t)).state = .LOCKED :=
  C8_locked_within_67 entry0 rfl ⟨rfl, rfl, rfl⟩ cleanStream 0 (by decide) (by decide)
    (by decide)

set_option maxRecDepth 100000 in
/-- C8 as stated fails: `cleanStream` is 16 well-formed frames starting at offset
0, so its first frame boundary is its first character; after 66 characters
`read_loop` is still in `ACQUIRE2` and has not been `LOCKED` at any earlier
moment. -/
theorem C8_counterexample :
    WellFormed 0 cleanStream ∧ cleanStream.length = 16 * 6
    ∧ (run entry0 (cleanStream.take 66)).state = .ACQUIRE2
    ∧ ∀ t, t < 67 → (run entry0 (cleanStream.take t)).state ≠ .LOCKED := by
  decide

/-! ## The calls made by `read_loop` -/

theorem data_received_updates (nsamples : Nat) (hosttime : Int) (s : DRState) (data : List Nat) :
    (data_received nsamples hosttime s data).updates = s.updates ++ [(hosttime, frameSync data)] := by
  unfold data_received
  simp only []
  split_ifs <;> rfl

theorem feed_updates (nsamples : Nat) (s : DRState) (calls : List (Int × List Nat)) :
    (feed nsamples s calls).updates = s.updates ++ calls.map (fun c => (c.1, frameSync c.2)) := by
  induction calls using List.reverseRecOn with
  | nil => simp [feed]
  | append_singleton calls c ih =>
    rw [feed_append, data_received_updates, ih, List.map_append, List.append_assoc]
    rfl

theorem read_loop_iter_loop (nsamples : Nat) (k : Driver) (c : Nat) (hosttime : Int) :
    (read_loop_iter nsamples k c hosttime).loop = (step k.loop c).1 := by
  unfold read_loop_iter
  generalize step k.loop c = r
  obtain ⟨l, a⟩ := r
  cases a <;> rfl

theorem read_loop_iter_dr (nsamples : Nat) (k : Driver) (c : Nat) (hosttime : Int) :
    (read_loop_iter nsamples k c hosttime).dr
      = match (step k.loop c).2 with
        | .frame d => data_received nsamples hosttime k.dr d
        | _ => k.dr := by
  unfold read_loop_iter
  generalize step k.loop c = r
  obtain ⟨l, a⟩ := r
  cases a <;> rfl

theorem read_loop_cons (nsamples : Nat) (k : Driver) (x : Nat × Int) (xs : List (Nat × Int)) :
    read_loop nsamples k (x :: xs) = read_loop nsamples (read_loop_iter nsamples k x.1 x.2) xs :=
  rfl

theorem feed_cons (nsamples : Nat) (s : DRState) (c : Int × List Nat)
    (cs : List (Int × List Nat)) :
    feed nsamples s (c :: cs) = feed nsamples (data_received nsamples c.1 s c.2) cs :=
  rfl

/-- The state of `data_received` at the end of `read_loop` is the result of the
calls listed by `frameCalls`. -/
theorem read_loop_dr (nsamples : Nat) (k : Driver) (input : List (Nat × Int)) :
    (read_loop nsamples k input).dr = feed nsamples k.dr (frameCalls k.loop input) := by
  induction input generalizing k with
  | nil => rfl
  | cons x xs ih =>
    rw [read_loop_cons, ih, read_loop_iter_loop, read_loop_iter_dr, frameCalls]
    cases (step k.loop x.1).2 <;> rfl

theorem frameCalls_length (s : LoopState) (input : List (Nat × Int)) :
    (frameCalls s input).length
      = ((actions s (input.map Prod.fst)).filter Action.isFrame).length := by
  induction input generalizing s with
  | nil => rfl
  | cons x xs ih =>
    rw [frameCalls, List.map_cons, actions]
    cases h : (step s x.1).2 <;> simp [Action.isFrame, ih]

/-- C11 (amended): `timesync_update` is invoked once per frame handed to
`data_received`, valid or not: for every input stream, the calls of
`timesync_update` made while `read_loop` consumes the stream are, in order,
one for each call of `data_received` (each iteration whose action is a frame),
carrying the host time of that iteration and the phase `(data[0] >> 6) & 3` of
byte 0 of the frame handed in; so their number is the number of frames handed
to `data_received`. -/
theorem C11_update_once_per_frame (nsamples : Nat) (k : Driver) (input : List (Nat × Int)) :
    (read_loop nsamples k input).dr.updates
      = k.dr.updates ++ (frameCalls k.loop input).map (fun c => (c.1, frameSync c.2))
    ∧ (read_loop nsamples k input).dr.updates.length
      = k.dr.updates.length
        + ((actions k.loop (input.map Prod.fst)).filter Action.isFrame).length := by
  have h : (read_loop nsamples k input).dr.updates
      = k.dr.updates ++ (frameCalls k.loop input).map (fun c => (c.1, frameSync c.2)) := by
    rw [read_loop_dr, feed_updates]
  refine ⟨h, ?_⟩
  rw [h, List.length_append, List.length_map, frameCalls_length]

set_option maxRecDepth 100000 in
/-- C11 as stated fails: while `read_loop` consumes the 96 characters of
`cleanInput` from program start, `timesync_update` is called 5 times, once for
each of the 5 frames handed to `data_received`; while it consumes the first
character alone, it is not called at all. -/
theorem C11_counterexample :
    cleanInput.length = 96
    ∧ (read_loop 6 driver0 cleanInput).dr.updates.length = 5
    ∧ (read_loop 6 driver0 (cleanInput.take 1)).dr.updates.length = 0 := by
  decide

/-! ## Frames handed to the decoder -/

theorem step_locked_data (s : LoopState) (c : Nat) (h : s.state = .LOCKED) :
    (step s c).1.data = s.data.set s.i (c % 256) := by
  unfold step
  simp only [h]
  split_ifs <;> rfl

theorem step_acquire2_locked_data (s : LoopState) (c : Nat) (h : s.state = .ACQUIRE2)
    (hl : (step s c).1.state = .LOCKED) : (step s c).1.data = s.data.set 0 (c % 256) := by
  unfold step at hl ⊢
  simp only [h] at hl ⊢
  split_ifs at hl ⊢
  simp_all

theorem locked_from (s : LoopState) (c : Nat) (hl : (step s c).1.state = .LOCKED) :
    s.state = .ACQUIRE2 ∨ s.state = .LOCKED := by
  cases hs : s.state with
  | STARTUP =>
    rw [(step_startup s c hs).1] at hl
    exact absurd hl (by decide)
  | ACQUIRE1 =>
    rw [(step_acquire1 s c hs).1] at hl
    split_ifs at hl
  | ACQUIRE2 => exact Or.inl rfl
  | LOCKED => exact Or.inr rfl

theorem list6_ext (l1 l2 : List Nat) (h1 : l1.length = 6) (h2 : l2.length = 6)
    (h : ∀ p, p < 6 → l1.getD p 0 = l2.getD p 0) : l1 = l2 := by
  apply List.ext_getElem (h1.trans h2.symm)
  intro p hp1 hp2
  have := h p (by omega)
  simpa [List.getD_eq_getElem?_getD, List.getElem?_eq_getElem hp1,
    List.getElem?_eq_getElem hp2] using this

theorem getD_take_drop (bs : List Nat) (a p : Nat) (hp : p < 6) :
    ((bs.drop a).take 6).getD p 0 = bs.getD (a + p) 0 := by
  simp [List.getD_eq_getElem?_getD, List.getElem?_take, hp]

theorem frameInv (s0 : LoopState) (h0 : s0.state = .STARTUP) (hsz : s0.Sized) (bs : List Nat)
    (t : Nat) (ht : t ≤ bs.length) : FrameInv s0 bs t := by
  induction t with
  | zero =>
    intro hl
    have : (run s0 (bs.take 0)).state = .STARTUP := h0
    rw [this] at hl
    exact absurd hl (by decide)
  | succ t ih =>
    have ih := ih (by omega)
    have hs := run_succ s0 bs t (by omega)
    have hz := run_sized s0 hsz (bs.take t)
    intro hl
    have hl' := hl
    rw [hs] at hl'
    rcases locked_from _ _ hl' with hst | hst
    · obtain ⟨e1, _⟩ := step_acquire2_locked_fields _ _ hst hl'
      have e2 := step_acquire2_locked_data _ _ hst hl'
      rw [← hs] at e1 e2
      refine ⟨t, by omega, hst, ?_, by rw [e1]; omega, ?_⟩
      · intro j hj1 hj2
        have : j = t + 1 := by omega
        rw [this]
        exact hl
      · intro p hp q hq
        have hp0 : p = 0 := by omega
        have hq0 : q = t := by omega
        rw [e2, hp0, hq0, getD_set _ _ _ _ (by rw [hz.1]; decide)]
        simp
    · obtain ⟨m, hm, hA, hkeep, hi, hdata⟩ := ih hst
      have e2 := step_locked_data _ (bs.getD t 0) hst
      rw [← hs] at e2
      have hilt : (run s0 (bs.take t)).i < (run s0 (bs.take t)).data.length := by
        rw [hz.1, hi]
        omega
      have hkeep' : ∀ j, m < j → j ≤ t + 1 → (run s0 (bs.take j)).state = .LOCKED := by
        intro j hj1 hj2
        by_cases hjt : j = t + 1
        · rw [hjt]; exact hl
        · exact hkeep j hj1 (by omega)
      by_cases hi0 : (run s0 (bs.take t)).i = 0
      · have hmatch : syncBits (bs.getD t 0) = ((run s0 (bs.take t)).lastsync + 1) % 4 := by
          by_contra hne
          rw [(step_locked_mismatch _ _ hst hi0 hne).1] at hl'
          exact absurd hl' (by decide)
        obtain ⟨_, _, e3, _⟩ := step_locked_match _ (bs.getD t 0) hst hi0 hmatch
        rw [← hs] at e3
        refine ⟨m, by omega, hA, hkeep', by rw [e3]; omega, ?_⟩
        intro p hp q hq
        have hp0 : p = 0 := by omega
        have hq0 : q = t := by omega
        rw [e2, getD_set _ _ _ _ hilt, hp0, hq0, hi0]
        simp
      · obtain ⟨_, _, e3, _⟩ := step_locked_inside _ (bs.getD t 0) hst hi0
        rw [← hs] at e3
        refine ⟨m, by omega, hA, hkeep', by rw [e3, hi]; omega, ?_⟩
        intro p hp q hq
        rw [e2, getD_set _ _ _ _ hilt]
        by_cases hpi : p = (run s0 (bs.take t)).i
        · have hq0 : q = t := by omega
          rw [if_pos hpi, hq0]
        · rw [if_neg hpi]
          exact hdata p (by omega) q (by omega)

/-- C12: for every stream of bytes, whenever `read_loop`, started in `STARTUP`,
calls `data_received` while consuming the character at index `n`, the frame
passed has 6 elements and is exactly the stream bytes `n-5, n-4, ..., n` in
order; the state was `ACQUIRE2` before some character `m`, `LOCKED` right after
it and at every moment since, including after the call; and `n - 5 - m = 6 * k`
for some `k >= 0`: the byte that triggered the lock is byte 0 of the first
decoded frame. -/
theorem C12_frames_are_aligned_runs (s0 : LoopState) (h0 : s0.state = .STARTUP)
    (hsz : s0.Sized) (bs : List Nat) (hbytes : ∀ b ∈ bs, b < 256) (n : Nat)
    (hn : n < bs.length) (d : List Nat)
    (hd : (step (run s0 (bs.take n)) (bs.getD n 0)).2 = .frame d) :
    5 ≤ n ∧ d.length = 6 ∧ d = (bs.drop (n - 5)).take 6
    ∧ ∃ m k, n - 5 - m = 6 * k ∧ m + 5 ≤ n
        ∧ (run s0 (bs.take m)).state = .ACQUIRE2
        ∧ (run s0 (bs.take (m + 1))).state = .LOCKED
        ∧ ∀ j, m < j → j ≤ n + 1 → (run s0 (bs.take j)).state = .LOCKED := by
  have hz := run_sized s0 hsz (bs.take n)
  have hst : (run s0 (bs.take n)).state = .LOCKED := by
    by_contra hne
    rw [step_idle_of_not_locked _ _ hne] at hd
    cases hd
  have hi0 : (run s0 (bs.take n)).i ≠ 0 := by
    intro hi0
    by_cases hm : syncBits (bs.getD n 0) = ((run s0 (bs.take n)).lastsync + 1) % 4
    · rw [(step_locked_match _ _ hst hi0 hm).2.2.2] at hd
      cases hd
    · rw [(step_locked_mismatch _ _ hst hi0 hm).2] at hd
      cases hd
  obtain ⟨e1, _, _, e4⟩ := step_locked_inside _ (bs.getD n 0) hst hi0
  rw [e4] at hd
  have hi5 : (run s0 (bs.take n)).i = 5 := by
    by_contra hne
    rw [if_neg hne] at hd
    cases hd
  rw [if_pos hi5, hi5] at hd
  have hdd : d = (run s0 (bs.take n)).data.set 5 (bs.getD n 0 % 256) := by
    injection hd with hd
    exact hd.symm
  obtain ⟨m, hm, hA, hkeep, hi, hdata⟩ := frameInv s0 h0 hsz bs n (by omega) hst
  rw [hi5] at hi
  have hlen : d.length = 6 := by rw [hdd, List.length_set, hz.1]
  have hkeep' : ∀ j, m < j → j ≤ n + 1 → (run s0 (bs.take j)).state = .LOCKED := by
    intro j hj1 hj2
    by_cases hjn : j = n + 1
    · rw [hjn, run_succ s0 bs n hn]
      exact e1
    · exact hkeep j hj1 (by omega)
  refine ⟨by omega, hlen, ?_, m, (n - m) / 6, by omega, by omega, hA,
    hkeep' (m + 1) (by omega) (by omega), hkeep'⟩
  apply list6_ext d _ hlen (by rw [List.length_take, List.length_drop]; omega)
  intro p hp
  rw [getD_take_drop bs (n - 5) p hp, hdd, getD_set _ _ _ _ (by rw [hz.1]; decide)]
  by_cases hp5 : p = 5
  · rw [if_pos hp5, hp5, Nat.mod_eq_of_lt (getD_byte bs hbytes n)]
    congr 1
    omega
  · rw [if_neg hp5, hdata p (by omega) (n - 5 + p) (by omega),
      Nat.mod_eq_of_lt (getD_byte bs hbytes _)]

set_option maxRecDepth 100000 in
theorem C12_frames_are_aligned_runs_witness :
    5 ≤ 71 ∧ [192, 0, 0, 0, 0, 0].length = 6
    ∧ [192, 0, 0, 0, 0, 0] = (cleanStream.drop (71 - 5)).take 6
    ∧ ∃ m k, 71 - 5 - m = 6 * k ∧ m + 5 ≤ 71
        ∧ (run entry0 (cleanStream.take m)).state = .ACQUIRE2
        ∧ (run entry0 (cleanStream.take (m + 1))).state = .LOCKED
        ∧ ∀ j, m < j → j ≤ 71 + 1 → (run entry0 (cleanStream.take j)).state = .LOCKED :=
  C12_frames_are_aligned_runs entry0 rfl ⟨rfl, rfl, rfl⟩ cleanStream (by decide) 71 (by decide)
    [192, 0, 0, 0, 0, 0] (by decide)

end Kvh
